import Mathlib

/-!
Verification development for the magic-documents vault organizer.

The Rust sources are shallowly embedded: a Rust string slice is modelled by
its character sequence (`Str := List Char`), a filesystem path by its list of
components (`FsPath := List Str`), YAML metadata by an insertion-ordered
association list (`Mapping`), and the filesystem touched by the redir engine
by an explicit record of files and directories (`FS`).  Fallible operations
return `Except Unit` or `Option`.  External collaborators (the frontmatter
parser, `Path::canonicalize`, the interactive selector, clock timestamps) are
parameters of the embedded operations.
-/

namespace MagicDocs

/-- Characters of a Rust string slice. -/
abbrev Str := List Char

/-- A filesystem path, as its list of components. -/
abbrev FsPath := List Str

/-- Rust `str::trim_start` on the character sequence. -/
def trimStart (s : Str) : Str := s.dropWhile Char.isWhitespace

/-- Rust `str::trim_end` on the character sequence. -/
def trimEnd (s : Str) : Str := (s.reverse.dropWhile Char.isWhitespace).reverse

/-- Rust `str::trim` on the character sequence. -/
def trimBoth (s : Str) : Str := trimEnd (trimStart s)

/-- Rust `str::find(pat)`: position of the first occurrence of `pat`. -/
def findSub : Str → Str → Option Nat
  | [], pat => if pat.isPrefixOf ([] : Str) then some 0 else none
  | c :: rest, pat =>
    if pat.isPrefixOf (c :: rest) then some 0 else (findSub rest pat).map (· + 1)

/-- Rust `str::split(c)`: split on every occurrence of the character,
keeping empty pieces. -/
def splitOnChar (c : Char) : Str → List Str
  | [] => [[]]
  | x :: rest =>
    if x = c then [] :: splitOnChar c rest
    else
      match splitOnChar c rest with
      | [] => [[x]]
      | h :: t => (x :: h) :: t

/-- Rust `Vec::join("/")` for a list of string segments. -/
def joinSlash : List Str → Str
  | [] => []
  | [s] => s
  | s :: rest => s ++ '/' :: joinSlash rest

/-- `TagPath` from `src/tags/parser.rs`: an ordered sequence of tag
segments (`pub struct TagPath(pub Vec<String>)`). -/
abbrev TagPath := List Str

/-- `TagPath::to_slash_string`: the segments joined with `/`. -/
def toSlash (t : TagPath) : Str := joinSlash t

/-- The literal marker opening `"{ #"` of a primary tag. -/
def markOpen : Str := ['\x7b', ' ', '#']

/-- The literal marker closing `" }"` of a primary tag. -/
def markClose : Str := [' ', '\x7d']

/-- The segment parsing shared by the tag readers: split on `/`, trim each
piece, drop empty pieces (`src/tags/parser.rs`). -/
def parseSegs (s : Str) : List Str :=
  ((splitOnChar '/' s).map trimBoth).filter (fun p => !p.isEmpty)

/-- `extract_primary_tag` from `src/tags/parser.rs`: if the body, after
leading whitespace, starts with `{ #tag }`, parse that tag. -/
def extractPrimaryTag (body : Str) : Option TagPath :=
  let trimmed := trimStart body
  if markOpen.isPrefixOf trimmed then
    match findSub trimmed markClose with
    | none => none
    | some e =>
      let tagStr := trimBoth ((trimmed.drop 3).take (e - 3))
      if tagStr.isEmpty then none
      else
        let parts := parseSegs tagStr
        if parts.isEmpty then none else some parts
  else none

/-- `replace_primary_tag` from `src/tags/parser.rs`: replace the leading
primary-tag marker (or insert one) with the given tag. -/
def replacePrimaryTag (body : Str) (newTag : TagPath) : Str :=
  let newTagLine := markOpen ++ toSlash newTag ++ markClose ++ ['\n', '\n']
  let trimmed := trimStart body
  if markOpen.isPrefixOf trimmed then
    match findSub trimmed markClose with
    | some e => newTagLine ++ trimStart (trimmed.drop (e + 2))
    | none => newTagLine ++ trimStart body
  else newTagLine ++ trimStart body

/-- The characters accepted inside an inline `#tag` marker
(`src/vault/scan.rs`, `extract_hash_tags_from_line`). -/
def isTagChar (c : Char) : Bool :=
  c.isAlphanum || c = '_' || c = '-' || c = '/'

/-- `extract_hash_tags_from_line` from `src/vault/scan.rs`: every `#tag`
marker of one line. -/
def extractHashTagsFromLine : Str → List TagPath
  | [] => []
  | c :: rest =>
    if c = '#' then
      let seg := rest.takeWhile isTagChar
      let parts := parseSegs seg
      if parts.isEmpty then extractHashTagsFromLine (rest.dropWhile isTagChar)
      else parts :: extractHashTagsFromLine (rest.dropWhile isTagChar)
    else extractHashTagsFromLine rest
termination_by l => l.length
decreasing_by
  all_goals exact Nat.lt_succ_of_le (by first
    | exact (List.dropWhile_sublist _).length_le
    | exact Nat.le_refl _)

/-- One step of the fence state machine of `extract_body_tags`. -/
def isFenceLine (line : Str) : Bool :=
  ("```".data).isPrefixOf (trimStart line) || ("~~~".data).isPrefixOf (trimStart line)

/-- The line loop of `extract_body_tags` from `src/vault/scan.rs`. -/
def bodyTagsGo (inCode : Bool) : List Str → List TagPath
  | [] => []
  | line :: rest =>
    if isFenceLine line then bodyTagsGo (!inCode) rest
    else if inCode then bodyTagsGo inCode rest
    else extractHashTagsFromLine line ++ bodyTagsGo inCode rest

/-- `extract_body_tags` from `src/vault/scan.rs`: inline `#tag` markers of
every line outside fenced code blocks. -/
def extractBodyTags (body : Str) : List TagPath :=
  bodyTagsGo false (splitOnChar '\n' body)

/-- The loop of `dedupe_tags` from `src/vault/scan.rs`, with the `HashSet`
of already-seen slash strings modelled as a list. -/
def dedupeGo (seen : List Str) : List TagPath → List TagPath
  | [] => []
  | t :: rest =>
    if toSlash t ∈ seen then dedupeGo seen rest
    else t :: dedupeGo (toSlash t :: seen) rest

/-- `dedupe_tags` from `src/vault/scan.rs`: keep the first occurrence of
every slash-joined string. -/
def dedupeTags (tags : List TagPath) : List TagPath := dedupeGo [] tags

/-- A `serde_yaml::Value` as far as the tag subsystem inspects it: a string,
a sequence, or anything else (abstracted to an opaque code). -/
inductive YValue where
  | str (s : Str)
  | seq (items : List YValue)
  | other (code : Nat)

/-- A `serde_yaml::Mapping`: an insertion-ordered association list. -/
abbrev Mapping := List (Str × YValue)

/-- `Mapping::get` by string key. -/
def mget : Mapping → Str → Option YValue
  | [], _ => none
  | (k', v) :: rest, k => if k' = k then some v else mget rest k

/-- `Mapping::insert` by string key: replace the value in place if the key
exists (IndexMap semantics), else append. -/
def minsert : Mapping → Str → YValue → Mapping
  | [], k, v => [(k, v)]
  | (k', v') :: rest, k, v =>
    if k' = k then (k', v) :: rest else (k', v') :: minsert rest k v

/-- The fixed preference order of frontmatter tag keys
(`src/tags/parser.rs`, `TAG_KEYS`). -/
def tagKeys : List Str := ["tags".data, "tag".data, "Tags".data, "Tag".data]

/-- The key scan of `TagPath::from_frontmatter`: the sequence stored under
the first key that is present as a YAML sequence. -/
def tagSeqLookup (fm : Mapping) : List Str → Option (List YValue)
  | [] => none
  | k :: ks =>
    match mget fm k with
    | some (.seq l) => some l
    | _ => tagSeqLookup fm ks

/-- The per-element parsing of `TagPath::from_frontmatter`: strings only,
trimmed, split on `/` into one independent tag. -/
def fmTagOfValue : YValue → Option TagPath
  | .str t =>
    let trimmed := trimBoth t
    if trimmed.isEmpty then none
    else
      let parts := parseSegs trimmed
      if parts.isEmpty then none else some parts
  | _ => none

/-- `TagPath::from_frontmatter` from `src/tags/parser.rs`. -/
def fromFrontmatter (fm : Mapping) : List TagPath :=
  match tagSeqLookup fm tagKeys with
  | some l => l.filterMap fmTagOfValue
  | none => []

/-- The outcome of `frontmatter::extract` on one document: `none` models a
malformed-YAML error, `some (fm, body)` the parsed metadata and body. -/
abbrev Document := Option (Mapping × Str)

/-- The frontmatter of a scanned document, with the scanner's
`unwrap_or_default` degradation (`src/vault/scan.rs`). -/
def fmOf (d : Document) : Mapping := (d.getD ([], [])).1

/-- The body of a scanned document, with the scanner's
`unwrap_or_default` degradation (`src/vault/scan.rs`). -/
def bodyOf (d : Document) : Str := (d.getD ([], [])).2

/-- The `primary_tag` field computed by `scan_tags` for one document. -/
def scanPrimary (d : Document) : Option TagPath := extractPrimaryTag (bodyOf d)

/-- The tag list accumulated by `scan_tags` before deduplication:
frontmatter tags, then inline body tags, then the primary tag. -/
def scanConcat (d : Document) : List TagPath :=
  fromFrontmatter (fmOf d) ++ extractBodyTags (bodyOf d) ++ (scanPrimary d).toList

/-- The `secondary_tags` field computed by `scan_tags` for one document. -/
def scanSecondary (d : Document) : List TagPath := dedupeTags (scanConcat d)

/-- `TagNode` from `src/tags/tree.rs`: a prefix-tree node; the `BTreeMap`
of children is modelled as an association list sorted by key. -/
inductive TagNode where
  | mk (name : Str) (children : List (Str × TagNode))

/-- The children of a `TagNode`. -/
def TagNode.children : TagNode → List (Str × TagNode)
  | .mk _ cs => cs

mutual

/-- `TagNode::insert_path` from `src/tags/tree.rs`. -/
def insertPath : TagNode → List Str → TagNode
  | n, [] => n
  | .mk name cs, s :: rest => .mk name (insertChild cs s rest)
termination_by _n p => (p.length, 0)

/-- The `children.entry(first).or_insert_with(...)` step of `insert_path`.
The `BTreeMap` of children is a map keyed by segment; its iteration order
is a display artifact, so the association list keeps keys in first-insertion
order. -/
def insertChild : List (Str × TagNode) → Str → List Str → List (Str × TagNode)
  | [], s, rest => [(s, insertPath (.mk s []) rest)]
  | (k, c) :: cs, s, rest =>
    if s = k then (k, insertPath c rest) :: cs
    else (k, c) :: insertChild cs s rest
termination_by cs _ rest => (rest.length, cs.length + 1)

end

/-- Child lookup in a `TagNode`. -/
def lookupChild : List (Str × TagNode) → Str → Option TagNode
  | [], _ => none
  | (k, c) :: cs, s => if k = s then some c else lookupChild cs s

/-- Whether a segment sequence is a root-to-node path of the tree. -/
def hasPath : TagNode → List Str → Bool
  | _, [] => true
  | .mk _ cs, s :: rest =>
    match lookupChild cs s with
    | some c => hasPath c rest
    | none => false

/-- `cache::collect` from `src/tags/cache.rs` over the scanned documents:
for every document whose frontmatter parses, insert each
frontmatter-declared tag into the tree. -/
def collectTree (docs : List Document) : TagNode :=
  docs.foldl
    (fun root d =>
      match d with
      | some (fm, _) => (fromFrontmatter fm).foldl (fun r t => insertPath r t) root
      | none => root)
    (.mk "root".data [])

/-- The mapping-lookup loop of `rename_from_productive`
(`src/commands/rename.rs`): each configured work directory is canonicalized
with `?` (an error propagates), and among the entries whose canonical path
contains the current directory the one with the most components wins.
`canon` models `Path::canonicalize`; `none` is a canonicalization error
(for example, the directory does not exist). -/
def findWorkMappingGo (canon : FsPath → Option FsPath) (cur : FsPath) :
    List (FsPath × Str) → Option (FsPath × Str) → Nat → Except Unit (Option (FsPath × Str))
  | [], best, _ => .ok best
  | (wp, ds) :: rest, best, bestLen =>
    match canon wp with
    | none => .error ()
    | some w =>
      if w.isPrefixOf cur then
        if bestLen < w.length then findWorkMappingGo canon cur rest (some (w, ds)) w.length
        else findWorkMappingGo canon cur rest best bestLen
      else findWorkMappingGo canon cur rest best bestLen

/-- The matched `(work-prefix, doc-subpath)` entry of
`rename_from_productive`, before the `context(...)` failure on no match. -/
def findWorkMapping (canon : FsPath → Option FsPath) (cur : FsPath)
    (mappings : List (FsPath × Str)) : Except Unit (Option (FsPath × Str)) :=
  findWorkMappingGo canon cur mappings none 0

/-- `PathBuf::from(doc_subpath)` for a relative subpath string: its
slash-separated components (`Path::components` skips empty pieces). -/
def docPathOf (ds : Str) : FsPath :=
  (splitOnChar '/' ds).filter (fun p => !p.isEmpty)

/-- The mapping-lookup loop of `rename_from_vault`
(`src/commands/rename.rs`): among the entries whose doc-subpath is a
component prefix of the directory's path relative to the tag root, the one
with the most components wins; the matched entry carries the remainder
past the doc-subpath (`strip_prefix`, which succeeds because
`starts_with` held). -/
def findVaultMappingGo (relative : FsPath) :
    List (FsPath × Str) → Option (FsPath × Str × FsPath) → Nat →
    Option (FsPath × Str × FsPath)
  | [], best, _ => best
  | (wp, ds) :: rest, best, bestLen =>
    if (docPathOf ds).isPrefixOf relative then
      if bestLen < (docPathOf ds).length then
        findVaultMappingGo relative rest
          (some (wp, ds, relative.drop (docPathOf ds).length)) (docPathOf ds).length
      else findVaultMappingGo relative rest best bestLen
    else findVaultMappingGo relative rest best bestLen

/-- The matched `(work_prefix, doc_subpath, remainder)` of
`rename_from_vault`, before the `context(...)` failure on no match. -/
def findVaultMapping (relative : FsPath) (mappings : List (FsPath × Str)) :
    Option (FsPath × Str × FsPath) :=
  findVaultMappingGo relative mappings none 0

/-- `derive_tag_from_path` from `src/commands/retag.rs`: strip the
`vault/tag_root` path, drop the filename, join the remaining components
with `/`.  The error is the "Path must be inside tag_root" failure. -/
def deriveTagFromPath (vault : FsPath) (tagRoot : Str) (path : FsPath) :
    Except Unit Str :=
  let root := vault ++ [tagRoot]
  if root.isPrefixOf path then
    .ok (joinSlash ((path.drop root.length).dropLast))
  else .error ()

/-- The `aliases` list the retag engine reads: the sequence stored under
`aliases`, or empty when the key is absent or not a sequence
(`src/commands/retag.rs`, the `unwrap_or_default`). -/
def aliasesOf (fm : Mapping) : List YValue :=
  match mget fm "aliases".data with
  | some (.seq l) => l
  | _ => []

/-- The aliases-append step of `retag_file_inner`
(`src/commands/retag.rs`, the block guarded by `!no_alias`). -/
def appendAlias (fm : Mapping) (dateStr oldTagStr : Str) : Mapping :=
  minsert fm "aliases".data (.seq (aliasesOf fm ++ [.str (dateStr ++ ' ' :: oldTagStr)]))

/-- `retag_file_inner` from `src/commands/retag.rs`, after the frontmatter
extraction: `ok none` is `Ok(false)` (skipped, nothing written), and
`ok (some (fm, body))` is `Ok(true)` with the metadata and body that are
written back.  `dateStr` is the formatted date used in alias entries. -/
def retagFileInner (vault : FsPath) (tagRoot : Str) (dateStr : Str)
    (noAlias : Bool) (path : FsPath) (fm : Mapping) (body : Str) :
    Except Unit (Option (Mapping × Str)) :=
  match deriveTagFromPath vault tagRoot path with
  | .error e => .error e
  | .ok newTagStr =>
    if newTagStr.isEmpty then .ok none
    else
      let newTag : TagPath := splitOnChar '/' newTagStr
      match extractPrimaryTag body with
      | some oldTag =>
        if toSlash oldTag = newTagStr then .ok none
        else
          let fm' :=
            if noAlias then fm
            else if toSlash oldTag = newTagStr then fm
            else appendAlias fm dateStr (toSlash oldTag)
          .ok (some (fm', replacePrimaryTag body newTag))
      | none => .ok (some (fm, replacePrimaryTag body newTag))

/-- The filesystem as the redir engine sees it: markdown files with their
frontmatter-parsed content, plus the set of directories. -/
structure FS where
  files : List (FsPath × (Mapping × Str))
  dirs : List FsPath

/-- Association lookup over the file entries. -/
def fsReadGo : List (FsPath × (Mapping × Str)) → FsPath → Option (Mapping × Str)
  | [], _ => none
  | (p, d) :: rest, q => if p = q then some d else fsReadGo rest q

/-- `fs::read_to_string` plus `frontmatter::extract`, as a lookup. -/
def fsRead (fs : FS) (p : FsPath) : Option (Mapping × Str) :=
  fsReadGo fs.files p

/-- Writing (or copying to) a file path: replace the entry if present,
else add it. -/
def fsWriteGo : List (FsPath × (Mapping × Str)) → FsPath → (Mapping × Str) →
    List (FsPath × (Mapping × Str))
  | [], q, d => [(q, d)]
  | (p, d') :: rest, q, d =>
    if p = q then (p, d) :: rest else (p, d') :: fsWriteGo rest q d

/-- `fs::copy`/`fs::write` to a destination path. -/
def fsWriteFile (fs : FS) (q : FsPath) (d : Mapping × Str) : FS :=
  { fs with files := fsWriteGo fs.files q d }

/-- `fs::create_dir_all`. -/
def fsMkdirAll (fs : FS) (p : FsPath) : FS :=
  { fs with dirs := p :: fs.dirs }

/-- `Path::exists`: a file or a directory is present. -/
def fsExists (fs : FS) (p : FsPath) : Bool :=
  (fsRead fs p).isSome || p ∈ fs.dirs

/-- Removal of a file entry (the source side of `fs::rename`). -/
def fsRemove (fs : FS) (p : FsPath) : FS :=
  { fs with files := fs.files.filter (fun e => e.1 ≠ p) }

/-- `fs::rename` of a file. -/
def fsRename (fs : FS) (p q : FsPath) : FS :=
  match fsRead fs p with
  | some d => fsWriteFile (fsRemove fs p) q d
  | none => fs

/-- The backup filename `stem_<ts>.md.bak` / `name_<ts>.bak` built by
`create_backup` (`src/commands/redir.rs`); `ts` is the formatted
timestamp. -/
def backupFileName (filename ts : Str) : Str :=
  if (".md".data).isSuffixOf filename then
    filename.take (filename.length - 3) ++ '_' :: ts ++ ".md.bak".data
  else filename ++ '_' :: ts ++ ".bak".data

/-- The flat backups directory `vault/.arc/backups`. -/
def backupDir (vault : FsPath) : FsPath := vault ++ [".arc".data, "backups".data]

/-- `create_backup` from `src/commands/redir.rs`: create the backups
directory, then copy the file to its timestamped backup path. -/
def createBackup (ts : Str) (vault : FsPath) (fs : FS) (filePath : FsPath) :
    Except Unit FS :=
  let fs1 := fsMkdirAll fs (backupDir vault)
  match filePath.getLast? with
  | none => .error ()
  | some filename =>
    match fsRead fs1 filePath with
    | none => .error ()
    | some d => .ok (fsWriteFile fs1 (backupDir vault ++ [backupFileName filename ts]) d)

/-- The tag-selection step of `redir_file_inner` (`src/commands/redir.rs`):
prefer the primary tag; fall back to frontmatter tags, with `choose`
modelling the interactive `Select` (`none` is ESC).  `ok none` means the
document is skipped; the error models the `unwrap` on an invalid index. -/
def selectRedirTag (choose : List Str → Option Nat) (fm : Mapping) (body : Str) :
    Except Unit (Option TagPath) :=
  match extractPrimaryTag body with
  | some p => .ok (some p)
  | none =>
    let fmTags := fromFrontmatter fm
    if fmTags.isEmpty then .ok none
    else if fmTags.length = 1 then .ok fmTags.head?
    else
      match choose (fmTags.map toSlash) with
      | none => .ok none
      | some idx =>
        match fmTags[idx]? with
        | some t => .ok (some t)
        | none => .error ()

/-- The `canonicalize` comparison of `redir_file_inner`: already in the
correct location only when both directories canonicalize and agree. -/
def redirAlreadyOk (canon : FsPath → Option FsPath) (parent destDir : FsPath) : Bool :=
  match canon parent, canon destDir with
  | some a, some b => a = b
  | _, _ => false

/-- `redir_file_inner` from `src/commands/redir.rs`: returns the state of
the filesystem after the call together with `Ok(None)` (skip),
`Ok(Some(dest))` (moved) or an error.  Every early error returns the state
reached so far, so partial side effects are observable. -/
def redirFileInner (canon : FsPath → Option FsPath) (choose : List Str → Option Nat)
    (ts : Str) (vault : FsPath) (notesDir : Str) (noBackup : Bool)
    (fs : FS) (path : FsPath) : FS × Except Unit (Option FsPath) :=
  match fsRead fs path with
  | none => (fs, .error ())
  | some (fm, body) =>
    match selectRedirTag choose fm body with
    | .error e => (fs, .error e)
    | .ok none => (fs, .ok none)
    | .ok (some tag) =>
      let destDir := vault ++ notesDir :: tag
      if redirAlreadyOk canon path.dropLast destDir then (fs, .ok none)
      else
        match (if noBackup then .ok fs else createBackup ts vault fs path :
            Except Unit FS) with
        | .error e => (fs, .error e)
        | .ok fs1 =>
          let fs2 := fsMkdirAll fs1 destDir
          match path.getLast? with
          | none => (fs2, .error ())
          | some filename =>
            let destPath := destDir ++ [filename]
            if fsExists fs2 destPath then (fs2, .error ())
            else (fsRename fs2 path destPath, .ok (some destPath))

/-! ## Rename lookup: claims C2 and C3 -/

theorem findWorkMappingGo_error_of_none (canon : FsPath → Option FsPath)
    (cur wp : FsPath) (ds : Str) :
    ∀ (maps : List (FsPath × Str)) (best : Option (FsPath × Str)) (bestLen : Nat),
      (wp, ds) ∈ maps → canon wp = none →
      findWorkMappingGo canon cur maps best bestLen = .error () := by
  intro maps
  induction maps with
  | nil => exact fun _ _ h _ => absurd h (List.not_mem_nil _)
  | cons e rest ih =>
    intro best bestLen hmem hnone
    obtain ⟨wp', ds'⟩ := e
    rcases List.mem_cons.mp hmem with heq | hmem'
    · cases heq
      simp [findWorkMappingGo, hnone]
    · simp only [findWorkMappingGo]
      cases hc : canon wp' with
      | none => rfl
      | some w =>
        by_cases hw : w.isPrefixOf cur <;> by_cases hl : bestLen < w.length <;>
          simp only [hw, hl, if_true, if_false, ite_true, ite_false, Bool.false_eq_true] <;>
          exact ih _ _ hmem' hnone

/-- C2: the claim says a mapping whose work directory does not exist on
disk is silently skipped by the rename lookup.  In the code the lookup
canonicalizes every configured work prefix with `?`, so a table holding the
nonexistent prefix `bad` makes the lookup fail even though the second
mapping `w` contains the current directory `w/q`. -/
theorem c2_counterexample :
    findWorkMapping (fun p => if p = ["bad".data] then none else some p)
      ["w".data, "q".data]
      [(["bad".data], "x".data), (["w".data], "a".data)] = .error () := by
  rfl

/-- C2 (amended): a mapping whose work-directory prefix fails to
canonicalize (for example, it does not exist on disk) is not skipped: its
presence anywhere in the table makes the whole rename lookup return an
error, regardless of the other mappings and of the current directory. -/
theorem c2_amended (canon : FsPath → Option FsPath) (cur : FsPath)
    (maps : List (FsPath × Str)) (wp : FsPath) (ds : Str)
    (hmem : (wp, ds) ∈ maps) (hnone : canon wp = none) :
    findWorkMapping canon cur maps = .error () :=
  findWorkMappingGo_error_of_none canon cur wp ds maps none 0 hmem hnone

/-- Witness for the amended C2 at the concrete table of the
counterexample. -/
theorem c2_witness :
    ((["bad".data], "x".data) ∈
        [((["bad".data] : FsPath), "x".data), (["w".data], "a".data)])
    ∧ (fun (p : FsPath) => if p = ["bad".data] then none else some p) ["bad".data] = none
    ∧ findWorkMapping (fun p => if p = ["bad".data] then none else some p)
        ["w".data, "q".data]
        [(["bad".data], "x".data), (["w".data], "a".data)] = .error () :=
  ⟨by simp, by simp,
    c2_amended _ _ _ ["bad".data] "x".data (by simp) (by simp)⟩

theorem findWorkMappingGo_longest (canon : FsPath → Option FsPath) (cur : FsPath) :
    ∀ (maps : List (FsPath × Str)) (best : Option (FsPath × Str)) (bestLen : Nat),
    (∀ p ∈ maps, ∃ w, canon p.1 = some w) →
    (findWorkMappingGo canon cur maps best bestLen = .ok best ∧
       ∀ wp ds w, (wp, ds) ∈ maps → canon wp = some w →
         w.isPrefixOf cur = true → w.length ≤ bestLen)
    ∨ (∃ wp ds w, (wp, ds) ∈ maps ∧ canon wp = some w ∧
         w.isPrefixOf cur = true ∧
         findWorkMappingGo canon cur maps best bestLen = .ok (some (w, ds)) ∧
         bestLen < w.length ∧
         ∀ wp' ds' w', (wp', ds') ∈ maps → canon wp' = some w' →
           w'.isPrefixOf cur = true → w'.length ≤ w.length) := by
  intro maps
  induction maps with
  | nil =>
    intro best bestLen _
    exact Or.inl ⟨rfl, fun wp ds w hm _ _ => absurd hm (List.not_mem_nil _)⟩
  | cons e rest ih =>
    intro best bestLen hc
    obtain ⟨wp, ds⟩ := e
    obtain ⟨w, hw⟩ := hc (wp, ds) (List.mem_cons_self _ _)
    have hcrest : ∀ p ∈ rest, ∃ w, canon p.1 = some w :=
      fun p hp => hc p (List.mem_cons_of_mem _ hp)
    by_cases hpre : w.isPrefixOf cur = true
    · by_cases hlt : bestLen < w.length
      · have hstep : findWorkMappingGo canon cur ((wp, ds) :: rest) best bestLen =
            findWorkMappingGo canon cur rest (some (w, ds)) w.length := by
          simp [findWorkMappingGo, hw, hpre, hlt]
        rcases ih (some (w, ds)) w.length hcrest with
          ⟨hres, hmax⟩ | ⟨wp', ds', w', hm', hw', hpre', hres, hlt', hmax⟩
        · refine Or.inr ⟨wp, ds, w, List.mem_cons_self _ _, hw, hpre,
            hstep.trans hres, hlt, ?_⟩
          intro wp2 ds2 w2 hm2 hw2 hp2
          rcases List.mem_cons.mp hm2 with heq | hm2'
          · obtain ⟨h1, _⟩ := Prod.mk.inj heq
            subst h1
            rw [hw] at hw2
            rw [← Option.some.inj hw2]
          · exact hmax _ _ _ hm2' hw2 hp2
        · refine Or.inr ⟨wp', ds', w', List.mem_cons_of_mem _ hm', hw', hpre',
            hstep.trans hres, Nat.lt_trans hlt hlt', ?_⟩
          intro wp2 ds2 w2 hm2 hw2 hp2
          rcases List.mem_cons.mp hm2 with heq | hm2'
          · obtain ⟨h1, _⟩ := Prod.mk.inj heq
            subst h1
            rw [hw] at hw2
            rw [← Option.some.inj hw2]
            exact Nat.le_of_lt hlt'
          · exact hmax _ _ _ hm2' hw2 hp2
      · have hstep : findWorkMappingGo canon cur ((wp, ds) :: rest) best bestLen =
            findWorkMappingGo canon cur rest best bestLen := by
          simp [findWorkMappingGo, hw, hpre, hlt]
        have hle : w.length ≤ bestLen := Nat.not_lt.mp hlt
        rcases ih best bestLen hcrest with
          ⟨hres, hmax⟩ | ⟨wp', ds', w', hm', hw', hpre', hres, hlt', hmax⟩
        · refine Or.inl ⟨hstep.trans hres, ?_⟩
          intro wp2 ds2 w2 hm2 hw2 hp2
          rcases List.mem_cons.mp hm2 with heq | hm2'
          · obtain ⟨h1, _⟩ := Prod.mk.inj heq
            subst h1
            rw [hw] at hw2
            rw [← Option.some.inj hw2]
            exact hle
          · exact hmax _ _ _ hm2' hw2 hp2
        · refine Or.inr ⟨wp', ds', w', List.mem_cons_of_mem _ hm', hw', hpre',
            hstep.trans hres, hlt', ?_⟩
          intro wp2 ds2 w2 hm2 hw2 hp2
          rcases List.mem_cons.mp hm2 with heq | hm2'
          · obtain ⟨h1, _⟩ := Prod.mk.inj heq
            subst h1
            rw [hw] at hw2
            rw [← Option.some.inj hw2]
            exact Nat.le_trans hle (Nat.le_of_lt hlt')
          · exact hmax _ _ _ hm2' hw2 hp2
    · have hstep : findWorkMappingGo canon cur ((wp, ds) :: rest) best bestLen =
          findWorkMappingGo canon cur rest best bestLen := by
        simp [findWorkMappingGo, hw, hpre]
      rcases ih best bestLen hcrest with
        ⟨hres, hmax⟩ | ⟨wp', ds', w', hm', hw', hpre', hres, hlt', hmax⟩
      · refine Or.inl ⟨hstep.trans hres, ?_⟩
        intro wp2 ds2 w2 hm2 hw2 hp2
        rcases List.mem_cons.mp hm2 with heq | hm2'
        · obtain ⟨h1, _⟩ := Prod.mk.inj heq
          subst h1
          rw [hw] at hw2
          rw [← Option.some.inj hw2] at hp2
          exact absurd hp2 hpre
        · exact hmax _ _ _ hm2' hw2 hp2
      · refine Or.inr ⟨wp', ds', w', List.mem_cons_of_mem _ hm', hw', hpre',
          hstep.trans hres, hlt', ?_⟩
        intro wp2 ds2 w2 hm2 hw2 hp2
        rcases List.mem_cons.mp hm2 with heq | hm2'
        · obtain ⟨h1, _⟩ := Prod.mk.inj heq
          subst h1
          rw [hw] at hw2
          rw [← Option.some.inj hw2] at hp2
          exact absurd hp2 hpre
        · exact hmax _ _ _ hm2' hw2 hp2

theorem findVaultMappingGo_longest (relative : FsPath) :
    ∀ (maps : List (FsPath × Str)) (best : Option (FsPath × Str × FsPath))
      (bestLen : Nat),
    (findVaultMappingGo relative maps best bestLen = best ∧
       ∀ wp ds, (wp, ds) ∈ maps → (docPathOf ds).isPrefixOf relative = true →
         (docPathOf ds).length ≤ bestLen)
    ∨ (∃ wp ds, (wp, ds) ∈ maps ∧ (docPathOf ds).isPrefixOf relative = true ∧
         findVaultMappingGo relative maps best bestLen =
           some (wp, ds, relative.drop (docPathOf ds).length) ∧
         bestLen < (docPathOf ds).length ∧
         ∀ wp' ds', (wp', ds') ∈ maps → (docPathOf ds').isPrefixOf relative = true →
           (docPathOf ds').length ≤ (docPathOf ds).length) := by
  intro maps
  induction maps with
  | nil =>
    intro best bestLen
    exact Or.inl ⟨rfl, fun wp ds hm _ => absurd hm (List.not_mem_nil _)⟩
  | cons e rest ih =>
    intro best bestLen
    obtain ⟨wp, ds⟩ := e
    by_cases hpre : (docPathOf ds).isPrefixOf relative = true
    · by_cases hlt : bestLen < (docPathOf ds).length
      · have hstep : findVaultMappingGo relative ((wp, ds) :: rest) best bestLen =
            findVaultMappingGo relative rest
              (some (wp, ds, relative.drop (docPathOf ds).length))
              (docPathOf ds).length := by
          simp [findVaultMappingGo, hpre, hlt]
        rcases ih (some (wp, ds, relative.drop (docPathOf ds).length))
            (docPathOf ds).length with
          ⟨hres, hmax⟩ | ⟨wp', ds', hm', hpre', hres, hlt', hmax⟩
        · refine Or.inr ⟨wp, ds, List.mem_cons_self _ _, hpre,
            hstep.trans hres, hlt, ?_⟩
          intro wp2 ds2 hm2 hp2
          rcases List.mem_cons.mp hm2 with heq | hm2'
          · obtain ⟨_, h2⟩ := Prod.mk.inj heq
            subst h2
            exact Nat.le_refl _
          · exact hmax _ _ hm2' hp2
        · refine Or.inr ⟨wp', ds', List.mem_cons_of_mem _ hm', hpre',
            hstep.trans hres, Nat.lt_trans hlt hlt', ?_⟩
          intro wp2 ds2 hm2 hp2
          rcases List.mem_cons.mp hm2 with heq | hm2'
          · obtain ⟨_, h2⟩ := Prod.mk.inj heq
            subst h2
            exact Nat.le_of_lt hlt'
          · exact hmax _ _ hm2' hp2
      · have hstep : findVaultMappingGo relative ((wp, ds) :: rest) best bestLen =
            findVaultMappingGo relative rest best bestLen := by
          simp [findVaultMappingGo, hpre, hlt]
        have hle : (docPathOf ds).length ≤ bestLen := Nat.not_lt.mp hlt
        rcases ih best bestLen with
          ⟨hres, hmax⟩ | ⟨wp', ds', hm', hpre', hres, hlt', hmax⟩
        · refine Or.inl ⟨hstep.trans hres, ?_⟩
          intro wp2 ds2 hm2 hp2
          rcases List.mem_cons.mp hm2 with heq | hm2'
          · obtain ⟨_, h2⟩ := Prod.mk.inj heq
            subst h2
            exact hle
          · exact hmax _ _ hm2' hp2
        · refine Or.inr ⟨wp', ds', List.mem_cons_of_mem _ hm', hpre',
            hstep.trans hres, hlt', ?_⟩
          intro wp2 ds2 hm2 hp2
          rcases List.mem_cons.mp hm2 with heq | hm2'
          · obtain ⟨_, h2⟩ := Prod.mk.inj heq
            subst h2
            exact Nat.le_trans hle (Nat.le_of_lt hlt')
          · exact hmax _ _ hm2' hp2
    · have hstep : findVaultMappingGo relative ((wp, ds) :: rest) best bestLen =
          findVaultMappingGo relative rest best bestLen := by
        simp [findVaultMappingGo, hpre]
      rcases ih best bestLen with
        ⟨hres, hmax⟩ | ⟨wp', ds', hm', hpre', hres, hlt', hmax⟩
      · refine Or.inl ⟨hstep.trans hres, ?_⟩
        intro wp2 ds2 hm2 hp2
        rcases List.mem_cons.mp hm2 with heq | hm2'
        · obtain ⟨_, h2⟩ := Prod.mk.inj heq
          subst h2
          exact absurd hp2 hpre
        · exact hmax _ _ hm2' hp2
      · refine Or.inr ⟨wp', ds', List.mem_cons_of_mem _ hm', hpre',
          hstep.trans hres, hlt', ?_⟩
        intro wp2 ds2 hm2 hp2
        rcases List.mem_cons.mp hm2 with heq | hm2'
        · obtain ⟨_, h2⟩ := Prod.mk.inj heq
          subst h2
          exact absurd hp2 hpre
        · exact hmax _ _ hm2' hp2

/-- C3: both rename lookups resolve by longest matching prefix, for every
mapping table.  For `rename_from_productive` (every work prefix assumed to
canonicalize): either no entry with a nonzero-length canonical prefix
contains the current directory and the lookup returns no match, or it
returns an entry whose canonical prefix contains the current directory and
whose component count is maximal among all containing entries.  The same
holds for `rename_from_vault`'s lookup by doc-subpath prefix of the
directory's path relative to the tag root, with the matched remainder.
In particular, for the table `{w ↦ a, w/sub ↦ b}` and current directory
`w/sub/x`, either iteration order selects the `w/sub` entry. -/
theorem c3_theorem :
    (∀ (canon : FsPath → Option FsPath) (cur : FsPath)
        (maps : List (FsPath × Str)),
      (∀ p ∈ maps, ∃ w, canon p.1 = some w) →
      (findWorkMapping canon cur maps = .ok none ∧
         ∀ wp ds w, (wp, ds) ∈ maps → canon wp = some w →
           w.isPrefixOf cur = true → w.length ≤ 0)
      ∨ (∃ wp ds w, (wp, ds) ∈ maps ∧ canon wp = some w ∧
           w.isPrefixOf cur = true ∧
           findWorkMapping canon cur maps = .ok (some (w, ds)) ∧
           0 < w.length ∧
           ∀ wp' ds' w', (wp', ds') ∈ maps → canon wp' = some w' →
             w'.isPrefixOf cur = true → w'.length ≤ w.length))
    ∧ (∀ (relative : FsPath) (maps : List (FsPath × Str)),
      (findVaultMapping relative maps = none ∧
         ∀ wp ds, (wp, ds) ∈ maps → (docPathOf ds).isPrefixOf relative = true →
           (docPathOf ds).length ≤ 0)
      ∨ (∃ wp ds, (wp, ds) ∈ maps ∧ (docPathOf ds).isPrefixOf relative = true ∧
           findVaultMapping relative maps =
             some (wp, ds, relative.drop (docPathOf ds).length) ∧
           0 < (docPathOf ds).length ∧
           ∀ wp' ds', (wp', ds') ∈ maps →
             (docPathOf ds').isPrefixOf relative = true →
             (docPathOf ds').length ≤ (docPathOf ds).length))
    ∧ (∀ maps : List (FsPath × Str),
        maps = [(["w".data], "a".data), (["w".data, "sub".data], "b".data)] ∨
        maps = [(["w".data, "sub".data], "b".data), (["w".data], "a".data)] →
        findWorkMapping (fun p => some p) ["w".data, "sub".data, "x".data] maps =
          .ok (some (["w".data, "sub".data], "b".data))) := by
  refine ⟨?_, ?_, ?_⟩
  · intro canon cur maps hc
    exact findWorkMappingGo_longest canon cur maps none 0 hc
  · intro relative maps
    exact findVaultMappingGo_longest relative maps none 0
  · intro maps h
    rcases h with h | h <;> subst h <;> rfl

/-- Witness for C3 at the first iteration order of the concrete table, and
for the universal parts at that same table. -/
theorem c3_witness :
    ((∀ p ∈ [((["w".data] : FsPath), "a".data),
        (["w".data, "sub".data], "b".data)],
      ∃ w, (fun (q : FsPath) => some q) p.1 = some w)
    ∧ ((findWorkMapping (fun p => some p) ["w".data, "sub".data, "x".data]
          [(["w".data], "a".data), (["w".data, "sub".data], "b".data)] = .ok none ∧
         ∀ wp ds w, (wp, ds) ∈ [((["w".data] : FsPath), "a".data),
             (["w".data, "sub".data], "b".data)] →
           (fun (q : FsPath) => some q) wp = some w →
           w.isPrefixOf ["w".data, "sub".data, "x".data] = true → w.length ≤ 0)
      ∨ (∃ wp ds w, (wp, ds) ∈ [((["w".data] : FsPath), "a".data),
             (["w".data, "sub".data], "b".data)] ∧
           (fun (q : FsPath) => some q) wp = some w ∧
           w.isPrefixOf ["w".data, "sub".data, "x".data] = true ∧
           findWorkMapping (fun p => some p) ["w".data, "sub".data, "x".data]
             [(["w".data], "a".data), (["w".data, "sub".data], "b".data)] =
             .ok (some (w, ds)) ∧
           0 < w.length ∧
           ∀ wp' ds' w', (wp', ds') ∈ [((["w".data] : FsPath), "a".data),
               (["w".data, "sub".data], "b".data)] →
             (fun (q : FsPath) => some q) wp' = some w' →
             w'.isPrefixOf ["w".data, "sub".data, "x".data] = true →
             w'.length ≤ w.length)))
    ∧ findWorkMapping (fun p => some p) ["w".data, "sub".data, "x".data]
        [(["w".data], "a".data), (["w".data, "sub".data], "b".data)] =
        .ok (some (["w".data, "sub".data], "b".data)) :=
  ⟨⟨fun p _ => ⟨p.1, rfl⟩,
      c3_theorem.1 (fun p => some p) ["w".data, "sub".data, "x".data]
        [(["w".data], "a".data), (["w".data, "sub".data], "b".data)]
        (fun p _ => ⟨p.1, rfl⟩)⟩,
    c3_theorem.2.2 _ (Or.inl rfl)⟩

/-! ## Tag derivation: claim C4 -/

theorem derive_under_root (vault : FsPath) (tagRoot : Str) (rel : List Str) :
    deriveTagFromPath vault tagRoot (vault ++ tagRoot :: rel) =
      .ok (joinSlash rel.dropLast) := by
  have hsplit : vault ++ tagRoot :: rel = (vault ++ [tagRoot]) ++ rel := by simp
  have h1 : (vault ++ [tagRoot]).isPrefixOf ((vault ++ [tagRoot]) ++ rel) = true :=
    List.isPrefixOf_iff_prefix.mpr (List.prefix_append _ _)
  simp only [deriveTagFromPath, hsplit, h1, if_true, List.drop_left]

/-- C4: for a document at `tag_root/dirs…/file`, retag derives the tag
whose string is the directory components below the tag root joined with
`/` (so `tag_root/a/b/note.md` derives `a/b`); and for a document directly
under the tag root the derived tag is empty and `retag_file_inner` reports
it skipped, writing nothing. -/
theorem c4_theorem (vault : FsPath) (tagRoot : Str) (dirs : List Str) (file : Str) :
    deriveTagFromPath vault tagRoot (vault ++ tagRoot :: (dirs ++ [file])) =
      .ok (joinSlash dirs)
    ∧ (dirs = [] → ∀ (dateStr : Str) (noAlias : Bool) (fm : Mapping) (body : Str),
        retagFileInner vault tagRoot dateStr noAlias
          (vault ++ tagRoot :: (dirs ++ [file])) fm body = .ok none) := by
  have hd := derive_under_root vault tagRoot (dirs ++ [file])
  rw [List.dropLast_concat] at hd
  refine ⟨hd, ?_⟩
  rintro rfl dateStr noAlias fm body
  simp only [retagFileInner, hd, joinSlash, List.isEmpty_nil, if_true]

/-- Witness for C4: the derivation at `Notas/a/b/note.md` and the skip at
`Notas/note.md`. -/
theorem c4_witness :
    deriveTagFromPath [] "Notas".data
        ([] ++ "Notas".data :: (["a".data, "b".data] ++ ["note.md".data])) =
      .ok (joinSlash ["a".data, "b".data])
    ∧ retagFileInner [] "Notas".data "D".data false
        ([] ++ "Notas".data :: (([] : List Str) ++ ["note.md".data])) [] "body".data =
      .ok none :=
  ⟨(c4_theorem [] "Notas".data ["a".data, "b".data] "note.md".data).1,
    (c4_theorem [] "Notas".data [] "note.md".data).2 rfl "D".data false [] "body".data⟩

/-! ## String lemmas for the primary-tag round trip (claim C5) -/

theorem findSub_pos (l pat : Str) (h : pat.isPrefixOf l = true) :
    findSub l pat = some 0 := by
  cases l <;> simp [findSub, h]

theorem findSub_cons_neg (c : Char) (l pat : Str)
    (h : pat.isPrefixOf (c :: l) = false) :
    findSub (c :: l) pat = (findSub l pat).map (· + 1) := by
  simp [findSub, h]

theorem findSub_cons_none (c : Char) (l pat : Str) (h : findSub (c :: l) pat = none) :
    pat.isPrefixOf (c :: l) = false ∧ findSub l pat = none := by
  cases hp : pat.isPrefixOf (c :: l) with
  | true => rw [findSub_pos _ _ hp] at h; cases h
  | false =>
    refine ⟨rfl, ?_⟩
    rw [findSub_cons_neg _ _ _ hp] at h
    simpa using h

theorem findSub_close_marker (s r : Str) (h : findSub s markClose = none) :
    findSub (s ++ ' ' :: '\x7d' :: r) markClose = some s.length := by
  induction s with
  | nil =>
    apply findSub_pos
    simp [markClose, List.isPrefixOf]
  | cons c s' ih =>
    obtain ⟨hnp, hn⟩ := findSub_cons_none _ _ _ h
    have hnp2 : markClose.isPrefixOf (c :: (s' ++ ' ' :: '\x7d' :: r)) = false := by
      cases s' with
      | nil =>
        have hb : (('\x7d' : Char) == ' ') = false := by decide
        simp [markClose, List.isPrefixOf, hb]
      | cons d s'' =>
        simp only [markClose, List.isPrefixOf, Bool.and_eq_false_iff] at hnp ⊢
        rcases hnp with hnp | hnp
        · exact Or.inl hnp
        · rcases hnp with hnp | hnp
          · exact Or.inr (Or.inl hnp)
          · simp at hnp
    rw [List.cons_append, findSub_cons_neg _ _ _ hnp2, ih hn]
    rfl

theorem trimStart_cons_of_not (c : Char) (l : Str) (h : c.isWhitespace = false) :
    trimStart (c :: l) = c :: l := by
  simp [trimStart, List.dropWhile_cons, h]

theorem trimStart_head_not (c : Char) (l : Str) (h : trimStart (c :: l) = c :: l) :
    c.isWhitespace = false := by
  cases hv : c.isWhitespace
  · rfl
  · exfalso
    have h2 : trimStart (c :: l) = trimStart l := by
      simp [trimStart, List.dropWhile_cons, hv]
    rw [h2] at h
    have hle : (trimStart l).length ≤ l.length := (List.dropWhile_sublist _).length_le
    rw [h] at hle
    simp only [List.length_cons] at hle
    omega

theorem trimStart_append_left (a b : Str) (ha : a ≠ []) (h : trimStart a = a) :
    trimStart (a ++ b) = a ++ b := by
  cases a with
  | nil => exact absurd rfl ha
  | cons c a' =>
    rw [List.cons_append]
    exact trimStart_cons_of_not _ _ (trimStart_head_not c a' h)

theorem trimEnd_length_le (l : Str) : (trimEnd l).length ≤ l.length := by
  calc (trimEnd l).length
      = (l.reverse.dropWhile Char.isWhitespace).length := by simp [trimEnd]
    _ ≤ l.reverse.length := (List.dropWhile_sublist _).length_le
    _ = l.length := List.length_reverse _

theorem trimStart_of_trimBoth (s : Str) (h : trimBoth s = s) : trimStart s = s := by
  have hsuf : trimStart s <:+ s := List.dropWhile_suffix _
  have h1 : s.length ≤ (trimStart s).length := by
    conv_lhs => rw [← h]
    exact trimEnd_length_le _
  exact hsuf.eq_of_length (le_antisymm hsuf.length_le h1)

theorem trimEnd_of_trimBoth (s : Str) (h : trimBoth s = s) : trimEnd s = s := by
  have h1 := trimStart_of_trimBoth s h
  unfold trimBoth at h
  rwa [h1] at h

theorem dropWhile_reverse_of_trimEnd (s : Str) (h : trimEnd s = s) :
    s.reverse.dropWhile Char.isWhitespace = s.reverse := by
  have h2 := congrArg List.reverse h
  simpa [trimEnd] using h2

theorem trimEnd_append_right (a b : Str) (hb : b ≠ []) (h : trimEnd b = b) :
    trimEnd (a ++ b) = a ++ b := by
  have hb' : b.reverse ≠ [] := by simpa using hb
  have hdw : trimStart b.reverse = b.reverse := dropWhile_reverse_of_trimEnd b h
  have hstep : trimStart (b.reverse ++ a.reverse) = b.reverse ++ a.reverse :=
    trimStart_append_left _ _ hb' hdw
  have hrev : (a ++ b).reverse = b.reverse ++ a.reverse := by simp
  unfold trimEnd
  rw [hrev, show (b.reverse ++ a.reverse).dropWhile Char.isWhitespace =
    b.reverse ++ a.reverse from hstep]
  simp

theorem trimEnd_cons_self (c : Char) (l : Str) (hl : l ≠ []) (h : trimEnd l = l) :
    trimEnd (c :: l) = c :: l := by
  simpa using trimEnd_append_right [c] l hl h

theorem joinSlash_ne_nil (t : List Str) (ht : t ≠ []) (h : ∀ s ∈ t, s ≠ []) :
    joinSlash t ≠ [] := by
  cases t with
  | nil => exact absurd rfl ht
  | cons s rest =>
    cases rest with
    | nil => simpa [joinSlash] using h s (by simp)
    | cons r rest' => simp [joinSlash]

theorem trimStart_joinSlash (t : List Str) (ht : t ≠ [])
    (h : ∀ s ∈ t, s ≠ [] ∧ trimBoth s = s) :
    trimStart (joinSlash t) = joinSlash t := by
  cases t with
  | nil => exact absurd rfl ht
  | cons s rest =>
    obtain ⟨hs0, hs1⟩ := h s (by simp)
    cases rest with
    | nil => exact trimStart_of_trimBoth s hs1
    | cons r rest' =>
      show trimStart (s ++ '/' :: joinSlash (r :: rest')) = _
      exact trimStart_append_left _ _ hs0 (trimStart_of_trimBoth s hs1)

theorem trimEnd_joinSlash : ∀ (t : List Str), t ≠ [] →
    (∀ s ∈ t, s ≠ [] ∧ trimBoth s = s) → trimEnd (joinSlash t) = joinSlash t := by
  intro t
  induction t with
  | nil => exact fun ht _ => absurd rfl ht
  | cons s rest ih =>
    intro _ h
    obtain ⟨hs0, hs1⟩ := h s (by simp)
    cases rest with
    | nil => exact trimEnd_of_trimBoth s hs1
    | cons r rest' =>
      have hrest : ∀ x ∈ r :: rest', x ≠ [] ∧ trimBoth x = x :=
        fun x hx => h x (by simp [hx])
      have hJ := ih (by simp) hrest
      have hJne : joinSlash (r :: rest') ≠ [] :=
        joinSlash_ne_nil _ (by simp) (fun x hx => (hrest x hx).1)
      show trimEnd (s ++ '/' :: joinSlash (r :: rest')) = _
      exact trimEnd_append_right _ _ (by simp) (trimEnd_cons_self '/' _ hJne hJ)

theorem trimBoth_joinSlash (t : List Str) (ht : t ≠ [])
    (h : ∀ s ∈ t, s ≠ [] ∧ trimBoth s = s) :
    trimBoth (joinSlash t) = joinSlash t := by
  unfold trimBoth
  rw [trimStart_joinSlash t ht h, trimEnd_joinSlash t ht h]

theorem splitOnChar_of_not_mem (c : Char) (a : Str) (h : c ∉ a) :
    splitOnChar c a = [a] := by
  induction a with
  | nil => rfl
  | cons x a' ih =>
    have hx : ¬ x = c := fun he => h (by simp [he])
    have ha' : c ∉ a' := fun hm => h (by simp [hm])
    simp [splitOnChar, hx, ih ha']

theorem splitOnChar_append_sep (c : Char) (a b : Str) (h : c ∉ a) :
    splitOnChar c (a ++ c :: b) = a :: splitOnChar c b := by
  induction a with
  | nil => simp [splitOnChar]
  | cons x a' ih =>
    have hx : ¬ x = c := fun he => h (by simp [he])
    have ha' : c ∉ a' := fun hm => h (by simp [hm])
    simp [splitOnChar, hx, ih ha']

theorem splitOnChar_joinSlash : ∀ (t : List Str), t ≠ [] →
    (∀ s ∈ t, '/' ∉ s) → splitOnChar '/' (joinSlash t) = t := by
  intro t
  induction t with
  | nil => exact fun ht _ => absurd rfl ht
  | cons s rest ih =>
    intro _ h
    cases rest with
    | nil => exact splitOnChar_of_not_mem _ _ (h s (by simp))
    | cons r rest' =>
      show splitOnChar '/' (s ++ '/' :: joinSlash (r :: rest')) = _
      rw [splitOnChar_append_sep _ _ _ (h s (by simp)),
        ih (by simp) (fun x hx => h x (by simp [hx]))]

theorem parseSegs_joinSlash (t : List Str) (ht : t ≠ [])
    (h : ∀ s ∈ t, s ≠ [] ∧ trimBoth s = s ∧ '/' ∉ s) :
    parseSegs (joinSlash t) = t := by
  unfold parseSegs
  rw [splitOnChar_joinSlash t ht (fun s hs => (h s hs).2.2)]
  have hmap : t.map trimBoth = t := by
    have h2 := List.map_congr_left (l := t) (f := trimBoth) (g := id)
      (fun s hs => (h s hs).2.1)
    simpa using h2
  rw [hmap, List.filter_eq_self.mpr ?_]
  intro a ha
  simpa using (h a ha).1

theorem replacePrimaryTag_shape (body : Str) (t : TagPath) :
    ∃ r, replacePrimaryTag body t =
      '\x7b' :: ' ' :: '#' :: (toSlash t ++ ' ' :: '\x7d' :: '\n' :: '\n' :: r) := by
  simp only [replacePrimaryTag]
  cases h1 : markOpen.isPrefixOf (trimStart body) with
  | true =>
    simp only [h1, if_true]
    cases hf : findSub (trimStart body) markClose with
    | some e =>
      exact ⟨trimStart ((trimStart body).drop (e + 2)), by simp [markOpen, markClose]⟩
    | none =>
      exact ⟨trimStart body, by simp [markOpen, markClose]⟩
  | false =>
    simp only [h1, Bool.false_eq_true, if_false]
    exact ⟨trimStart body, by simp [markOpen, markClose]⟩

theorem extract_replace (body : Str) (t : TagPath) (ht : t ≠ [])
    (hseg : ∀ s ∈ t, s ≠ [] ∧ trimBoth s = s ∧ '/' ∉ s)
    (hmark : findSub (toSlash t) markClose = none) :
    extractPrimaryTag (replacePrimaryTag body t) = some t := by
  obtain ⟨r, hr⟩ := replacePrimaryTag_shape body t
  rw [hr]
  have hSne : toSlash t ≠ [] := joinSlash_ne_nil t ht (fun s hs => (hseg s hs).1)
  have htrim : trimStart ('\x7b' :: ' ' :: '#' ::
      (toSlash t ++ ' ' :: '\x7d' :: '\n' :: '\n' :: r)) =
      '\x7b' :: ' ' :: '#' :: (toSlash t ++ ' ' :: '\x7d' :: '\n' :: '\n' :: r) :=
    trimStart_cons_of_not _ _ (by decide)
  have hpre : markOpen.isPrefixOf ('\x7b' :: ' ' :: '#' ::
      (toSlash t ++ ' ' :: '\x7d' :: '\n' :: '\n' :: r)) = true := by
    simp [markOpen, List.isPrefixOf]
  have hb1 : ((' ' : Char) == '\x7b') = false := by decide
  have hb2 : (('\x7d' : Char) == '#') = false := by decide
  have hb3 : ((' ' : Char) == '#') = false := by decide
  have hne1 : markClose.isPrefixOf ('\x7b' :: ' ' :: '#' ::
      (toSlash t ++ ' ' :: '\x7d' :: '\n' :: '\n' :: r)) = false := by
    simp [markClose, List.isPrefixOf, hb1]
  have hne2 : markClose.isPrefixOf (' ' :: '#' ::
      (toSlash t ++ ' ' :: '\x7d' :: '\n' :: '\n' :: r)) = false := by
    simp [markClose, List.isPrefixOf, hb2]
  have hne3 : markClose.isPrefixOf ('#' ::
      (toSlash t ++ ' ' :: '\x7d' :: '\n' :: '\n' :: r)) = false := by
    simp [markClose, List.isPrefixOf, hb3]
  have hfs : findSub ('\x7b' :: ' ' :: '#' ::
      (toSlash t ++ ' ' :: '\x7d' :: '\n' :: '\n' :: r)) markClose =
      some ((toSlash t).length + 3) := by
    rw [findSub_cons_neg _ _ _ hne1, findSub_cons_neg _ _ _ hne2,
      findSub_cons_neg _ _ _ hne3, findSub_close_marker _ _ hmark]
    simp only [Option.map_some']
  have hdrop : (('\x7b' :: ' ' :: '#' ::
      (toSlash t ++ ' ' :: '\x7d' :: '\n' :: '\n' :: r)).drop 3) =
      toSlash t ++ ' ' :: '\x7d' :: '\n' :: '\n' :: r := rfl
  have htake : (toSlash t ++ ' ' :: '\x7d' :: '\n' :: '\n' :: r).take
      ((toSlash t).length + 3 - 3) = toSlash t := by
    rw [Nat.add_sub_cancel]
    exact List.take_left _ _
  have htb : trimBoth (toSlash t) = toSlash t :=
    trimBoth_joinSlash t ht (fun s hs => ⟨(hseg s hs).1, (hseg s hs).2.1⟩)
  have hps : parseSegs (toSlash t) = t := parseSegs_joinSlash t ht hseg
  have hSempty : (toSlash t).isEmpty = false := by
    cases hv : toSlash t with
    | nil => exact absurd hv hSne
    | cons a b => rfl
  have htempty : (t : List Str).isEmpty = false := by
    cases hv : t with
    | nil => exact absurd hv ht
    | cons a b => rfl
  simp only [extractPrimaryTag, htrim, hpre, if_true, hfs, hdrop, htake, htb,
    hSempty, hps, htempty, Bool.false_eq_true, if_false]

/-- C5: the claim states retag is idempotent for every document content and
path.  A directory whose name contains the two characters `" }"` (here
`a }b`) breaks it: the first run embeds `{ #a }b }`, but the parser reads
the tag back only up to the first `" }"`, so the second run extracts `a`,
sees it differ from the derived `a }b`, and updates again instead of
skipping. -/
theorem c5_counterexample :
    retagFileInner [] "Notas".data "D".data true
        ["Notas".data, "a \x7db".data, "n.md".data] [] "# T".data
      = .ok (some ([], "\x7b #a \x7db \x7d\n\n# T".data))
    ∧ retagFileInner [] "Notas".data "D".data true
        ["Notas".data, "a \x7db".data, "n.md".data] []
        "\x7b #a \x7db \x7d\n\n# T".data
      ≠ .ok none := by
  refine ⟨rfl, ?_⟩
  intro hcontra
  rw [show retagFileInner [] "Notas".data "D".data true
      ["Notas".data, "a \x7db".data, "n.md".data] []
      "\x7b #a \x7db \x7d\n\n# T".data
    = .ok (some ([], "\x7b #a \x7db \x7d\n\nb \x7d\n\n# T".data)) from rfl] at hcontra
  simp at hcontra

/-- C5 (amended): retag is idempotent for every path whose directory
components below the tag root are non-empty, are their own trim, contain no
`/`, and whose slash-joined derived tag contains no `" }"` substring: if a
first retag run updates the document, a second run on the produced
metadata and body (same path) reports it skipped and changes nothing,
because extracting the primary tag from the body written by
`replace_primary_tag` yields exactly the derived tag. -/
theorem c5_amended (vault : FsPath) (tagRoot : Str) (dirs : List Str) (file : Str)
    (dateStr dateStr2 : Str) (noAlias noAlias2 : Bool) (fm fm2 : Mapping)
    (body body2 : Str)
    (hseg : ∀ s ∈ dirs, s ≠ [] ∧ trimBoth s = s ∧ '/' ∉ s)
    (hmark : findSub (joinSlash dirs) markClose = none)
    (hfirst : retagFileInner vault tagRoot dateStr noAlias
      (vault ++ tagRoot :: (dirs ++ [file])) fm body = .ok (some (fm2, body2))) :
    retagFileInner vault tagRoot dateStr2 noAlias2
      (vault ++ tagRoot :: (dirs ++ [file])) fm2 body2 = .ok none := by
  have hd := derive_under_root vault tagRoot (dirs ++ [file])
  rw [List.dropLast_concat] at hd
  by_cases hnil : dirs = []
  · exfalso
    subst hnil
    rw [show retagFileInner vault tagRoot dateStr noAlias
        (vault ++ tagRoot :: (([] : List Str) ++ [file])) fm body = .ok none by
      simp only [retagFileInner, hd, joinSlash, List.isEmpty_nil, if_true]] at hfirst
    simp at hfirst
  · have hJne : joinSlash dirs ≠ [] :=
      joinSlash_ne_nil dirs hnil (fun s hs => (hseg s hs).1)
    have hJe : (joinSlash dirs).isEmpty = false := by
      cases hv : joinSlash dirs with
      | nil => exact absurd hv hJne
      | cons a b => rfl
    have hsplit : splitOnChar '/' (joinSlash dirs) = dirs :=
      splitOnChar_joinSlash dirs hnil (fun s hs => (hseg s hs).2.2)
    have hbody2 : body2 = replacePrimaryTag body dirs := by
      cases ho : extractPrimaryTag body with
      | none =>
        simp only [retagFileInner, hd, hJe, Bool.false_eq_true, if_false, hsplit,
          ho, Except.ok.injEq, Option.some.injEq, Prod.mk.injEq] at hfirst
        exact hfirst.2.symm
      | some old =>
        simp only [retagFileInner, hd, hJe, Bool.false_eq_true, if_false, hsplit,
          ho] at hfirst
        by_cases he : toSlash old = joinSlash dirs
        · rw [if_pos he] at hfirst
          simp at hfirst
        · rw [if_neg he] at hfirst
          simp only [Except.ok.injEq, Option.some.injEq, Prod.mk.injEq] at hfirst
          exact hfirst.2.symm
    have hex : extractPrimaryTag body2 = some dirs := by
      rw [hbody2]
      exact extract_replace body dirs hnil hseg hmark
    simp only [retagFileInner, hd, hJe, Bool.false_eq_true, if_false, hex]
    rw [if_pos]
    rfl

/-- Witness for the amended C5 at `Notas/a/b/n.md` with body `hello`. -/
theorem c5_witness :
    (∀ s ∈ [("a".data : Str), "b".data], s ≠ [] ∧ trimBoth s = s ∧ '/' ∉ s)
    ∧ findSub (joinSlash ["a".data, "b".data]) markClose = none
    ∧ retagFileInner [] "Notas".data "D".data false
        ([] ++ "Notas".data :: (["a".data, "b".data] ++ ["n.md".data])) []
        "hello".data
      = .ok (some ([], "\x7b #a/b \x7d\n\nhello".data))
    ∧ retagFileInner [] "Notas".data "D2".data true
        ([] ++ "Notas".data :: (["a".data, "b".data] ++ ["n.md".data])) []
        "\x7b #a/b \x7d\n\nhello".data = .ok none := by
  refine ⟨?_, rfl, rfl, ?_⟩
  · decide
  · exact c5_amended [] "Notas".data ["a".data, "b".data] "n.md".data
      "D".data "D2".data false true [] [] "hello".data
      "\x7b #a/b \x7d\n\nhello".data (by decide) rfl rfl

/-! ## Redir after retag: claim C6 -/

/-- C6: the claim says that for a document whose primary tag was just set
by retag to the path-derived tag, redir computes a destination equal to the
current parent directory and moves nothing.  With the configured notes
directory (`Other`) different from the tag root (`Notas`), the premise
holds — the embedded tag `a` is the path-derived tag of `Notas/a/n.md` —
yet redir computes destination `Other/a` and moves the file. -/
theorem c6_counterexample :
    (redirFileInner (fun p => some p) (fun _ => none) "TS".data [] "Other".data true
        { files := [(["Notas".data, "a".data, "n.md".data],
            ([], "\x7b #a \x7d\n\ntext".data))], dirs := [] }
        ["Notas".data, "a".data, "n.md".data]).2
      = .ok (some ["Other".data, "a".data, "n.md".data])
    ∧ extractPrimaryTag "\x7b #a \x7d\n\ntext".data = some ["a".data]
    ∧ deriveTagFromPath [] "Notas".data ["Notas".data, "a".data, "n.md".data]
      = .ok "a".data :=
  ⟨rfl, rfl, rfl⟩

/-- C6 (amended): when the configured notes directory equals the tag root
(the default configuration, both `Notas`), a document under
`notes_root/dirs…` whose embedded primary tag is exactly the path-derived
segment list resolves to a destination directory equal to its parent, so
redir reports it already correct and changes nothing (provided the parent
directory canonicalizes). -/
theorem c6_amended (canon : FsPath → Option FsPath) (choose : List Str → Option Nat)
    (ts : Str) (vault : FsPath) (rootDir : Str) (dirs : List Str) (file : Str)
    (noBackup : Bool) (fs : FS) (fm : Mapping) (body : Str) (c : FsPath)
    (hread : fsRead fs (vault ++ rootDir :: (dirs ++ [file])) = some (fm, body))
    (htag : extractPrimaryTag body = some dirs)
    (hc : canon (vault ++ rootDir :: dirs) = some c) :
    redirFileInner canon choose ts vault rootDir noBackup fs
      (vault ++ rootDir :: (dirs ++ [file])) = (fs, .ok none) := by
  have hdl : (vault ++ rootDir :: (dirs ++ [file])).dropLast =
      vault ++ rootDir :: dirs := by
    rw [show vault ++ rootDir :: (dirs ++ [file]) =
      (vault ++ rootDir :: dirs) ++ [file] by simp]
    exact List.dropLast_concat
  have hsel : selectRedirTag choose fm body = .ok (some dirs) := by
    simp [selectRedirTag, htag]
  have hok : redirAlreadyOk canon (vault ++ rootDir :: (dirs ++ [file])).dropLast
      (vault ++ rootDir :: dirs) = true := by
    rw [hdl]
    simp [redirAlreadyOk, hc]
  simp only [redirFileInner, hread, hsel, hok, if_true]

/-- Witness for the amended C6 at `Notas/a/n.md` with tag `a`. -/
theorem c6_witness :
    fsRead { files := [(["Notas".data, "a".data, "n.md".data],
          ([], "\x7b #a \x7d\n\ntext".data))], dirs := [] }
        ([] ++ "Notas".data :: (["a".data] ++ ["n.md".data]))
      = some ([], "\x7b #a \x7d\n\ntext".data)
    ∧ extractPrimaryTag "\x7b #a \x7d\n\ntext".data = some ["a".data]
    ∧ (fun (p : FsPath) => some p) ([] ++ "Notas".data :: ["a".data])
      = some ([] ++ "Notas".data :: ["a".data])
    ∧ redirFileInner (fun p => some p) (fun _ => none) "TS".data []
        "Notas".data true
        { files := [(["Notas".data, "a".data, "n.md".data],
            ([], "\x7b #a \x7d\n\ntext".data))], dirs := [] }
        ([] ++ "Notas".data :: (["a".data] ++ ["n.md".data]))
      = ({ files := [(["Notas".data, "a".data, "n.md".data],
            ([], "\x7b #a \x7d\n\ntext".data))], dirs := [] }, .ok none) :=
  ⟨rfl, rfl, rfl,
    c6_amended (fun p => some p) (fun _ => none) "TS".data [] "Notas".data
      ["a".data] "n.md".data true _ [] "\x7b #a \x7d\n\ntext".data
      ([] ++ "Notas".data :: ["a".data]) rfl rfl rfl⟩

/-! ## Alias preservation: claim C7 -/

theorem mget_minsert_self (fm : Mapping) (k : Str) (v : YValue) :
    mget (minsert fm k v) k = some v := by
  induction fm with
  | nil => simp [minsert, mget]
  | cons e rest ih =>
    obtain ⟨k', v'⟩ := e
    by_cases hk : k' = k
    · subst hk
      simp [minsert, mget]
    · simp [minsert, mget, hk, ih]

theorem mget_minsert_other (fm : Mapping) (k : Str) (v : YValue) (q : Str)
    (h : q ≠ k) :
    mget (minsert fm k v) q = mget fm q := by
  induction fm with
  | nil => simp [minsert, mget, Ne.symm h]
  | cons e rest ih =>
    obtain ⟨k', v'⟩ := e
    by_cases hk : k' = k
    · subst hk
      simp [minsert, mget, Ne.symm h]
    · by_cases hq : k' = q <;> simp [minsert, mget, hk, hq, ih, h]

/-- C7: when the primary tag embedded in the body differs from the derived
tag and alias preservation is on, retag writes back metadata equal to the
old metadata with exactly one entry `"<date> <old-tag>"` appended to the
`aliases` sequence: the previous alias entries are kept as a prefix, and
every other key maps to its previous value. -/
theorem c7_theorem (vault : FsPath) (tagRoot : Str) (dateStr : Str)
    (path : FsPath) (fm : Mapping) (body : Str) (newTagStr : Str)
    (oldTag : TagPath)
    (hderive : deriveTagFromPath vault tagRoot path = .ok newTagStr)
    (hne : newTagStr.isEmpty = false)
    (hold : extractPrimaryTag body = some oldTag)
    (hdiff : toSlash oldTag ≠ newTagStr) :
    retagFileInner vault tagRoot dateStr false path fm body =
      .ok (some (appendAlias fm dateStr (toSlash oldTag),
        replacePrimaryTag body (splitOnChar '/' newTagStr)))
    ∧ mget (appendAlias fm dateStr (toSlash oldTag)) "aliases".data =
        some (.seq (aliasesOf fm ++ [.str (dateStr ++ ' ' :: toSlash oldTag)]))
    ∧ ∀ k, k ≠ "aliases".data →
        mget (appendAlias fm dateStr (toSlash oldTag)) k = mget fm k := by
  refine ⟨?_, mget_minsert_self _ _ _, fun k hk => mget_minsert_other _ _ _ _ hk⟩
  simp only [retagFileInner, hderive, hne, Bool.false_eq_true, if_false, hold]
  rw [if_neg hdiff]
  simp [hdiff]

/-- Witness for C7: retagging `Notas/x/z/n.md` whose body still carries
`x/y`, with one pre-existing alias and one unrelated key. -/
theorem c7_witness :
    deriveTagFromPath [] "Notas".data
        ["Notas".data, "x".data, "z".data, "n.md".data] = .ok "x/z".data
    ∧ ("x/z".data : Str).isEmpty = false
    ∧ extractPrimaryTag "\x7b #x/y \x7d\n\nt".data = some ["x".data, "y".data]
    ∧ toSlash ["x".data, "y".data] ≠ "x/z".data
    ∧ (retagFileInner [] "Notas".data "2026-10-12".data false
          ["Notas".data, "x".data, "z".data, "n.md".data]
          [("title".data, .str "T".data), ("aliases".data, .seq [.str "old".data])]
          "\x7b #x/y \x7d\n\nt".data =
        .ok (some (appendAlias
            [("title".data, .str "T".data), ("aliases".data, .seq [.str "old".data])]
            "2026-10-12".data (toSlash ["x".data, "y".data]),
          replacePrimaryTag "\x7b #x/y \x7d\n\nt".data
            (splitOnChar '/' "x/z".data)))
      ∧ mget (appendAlias
            [("title".data, .str "T".data), ("aliases".data, .seq [.str "old".data])]
            "2026-10-12".data (toSlash ["x".data, "y".data])) "aliases".data =
          some (.seq (aliasesOf
              [("title".data, .str "T".data), ("aliases".data, .seq [.str "old".data])]
            ++ [.str ("2026-10-12".data ++ ' ' :: toSlash ["x".data, "y".data])]))
      ∧ ∀ k, k ≠ "aliases".data →
          mget (appendAlias
              [("title".data, .str "T".data), ("aliases".data, .seq [.str "old".data])]
              "2026-10-12".data (toSlash ["x".data, "y".data])) k =
            mget [("title".data, .str "T".data),
              ("aliases".data, .seq [.str "old".data])] k) := by
  refine ⟨rfl, rfl, rfl, ?_, ?_⟩
  · intro h
    cases h
  · exact c7_theorem [] "Notas".data "2026-10-12".data
      ["Notas".data, "x".data, "z".data, "n.md".data]
      [("title".data, .str "T".data), ("aliases".data, .seq [.str "old".data])]
      "\x7b #x/y \x7d\n\nt".data "x/z".data ["x".data, "y".data]
      rfl rfl rfl (by intro h; cases h)

/-! ## ScanItem invariant: claim C8 -/

theorem dedupeGo_sublist : ∀ (l : List TagPath) (seen : List Str),
    (dedupeGo seen l).Sublist l := by
  intro l
  induction l with
  | nil => intro seen; simp [dedupeGo]
  | cons t rest ih =>
    intro seen
    by_cases h : toSlash t ∈ seen
    · simp only [dedupeGo, if_pos h]
      exact (ih seen).cons t
    · simp only [dedupeGo, if_neg h]
      exact (ih _).cons₂ t

theorem dedupeGo_not_seen_first : ∀ (l : List TagPath) (seen : List Str) (u : TagPath),
    u ∈ dedupeGo seen l →
    toSlash u ∉ seen ∧ l.find? (fun x => toSlash x == toSlash u) = some u := by
  intro l
  induction l with
  | nil => intro seen u hu; simp [dedupeGo] at hu
  | cons t rest ih =>
    intro seen u hu
    by_cases h : toSlash t ∈ seen
    · simp only [dedupeGo, if_pos h] at hu
      obtain ⟨h1, h2⟩ := ih seen u hu
      have hne : ¬ ((toSlash t == toSlash u) = true) := by
        intro hbe
        exact h1 (eq_of_beq hbe ▸ h)
      exact ⟨h1, (List.find?_cons_of_neg (p := fun x => toSlash x == toSlash u)
        (a := t) rest hne).trans h2⟩
    · simp only [dedupeGo, if_neg h, List.mem_cons] at hu
      rcases hu with rfl | hu'
      · exact ⟨h, List.find?_cons_of_pos _ (by simp)⟩
      · obtain ⟨h1, h2⟩ := ih _ u hu'
        have h1seen : toSlash u ∉ seen := fun hs => h1 (List.mem_cons_of_mem _ hs)
        have hne : ¬ ((toSlash t == toSlash u) = true) := by
          intro hbe
          exact h1 (by rw [← eq_of_beq hbe]; exact List.mem_cons_self _ _)
        exact ⟨h1seen, (List.find?_cons_of_neg (p := fun x => toSlash x == toSlash u)
          (a := t) rest hne).trans h2⟩

theorem dedupeGo_keys_nodup : ∀ (l : List TagPath) (seen : List Str),
    ((dedupeGo seen l).map toSlash).Nodup := by
  intro l
  induction l with
  | nil => intro seen; simp [dedupeGo]
  | cons t rest ih =>
    intro seen
    by_cases h : toSlash t ∈ seen
    · simpa [dedupeGo, h] using ih seen
    · simp only [dedupeGo, if_neg h, List.map_cons, List.nodup_cons]
      refine ⟨?_, ih _⟩
      intro hmem
      obtain ⟨u, hu, he⟩ := List.mem_map.mp hmem
      exact (dedupeGo_not_seen_first rest _ u hu).1 (by rw [he]; exact List.mem_cons_self _ _)

theorem dedupeGo_covers : ∀ (l : List TagPath) (seen : List Str) (t : TagPath),
    t ∈ l → toSlash t ∉ seen → ∃ u ∈ dedupeGo seen l, toSlash u = toSlash t := by
  intro l
  induction l with
  | nil => intro seen t ht _; simp at ht
  | cons hd rest ih =>
    intro seen t ht hseen
    by_cases h : toSlash hd ∈ seen
    · rcases List.mem_cons.mp ht with rfl | ht'
      · exact absurd h hseen
      · simp only [dedupeGo, if_pos h]
        exact ih seen t ht' hseen
    · simp only [dedupeGo, if_neg h]
      by_cases he : toSlash t = toSlash hd
      · exact ⟨hd, List.mem_cons_self _ _, he.symm⟩
      · rcases List.mem_cons.mp ht with rfl | ht'
        · exact absurd rfl he
        · obtain ⟨u, hu, hue⟩ := ih (toSlash hd :: seen) t ht' (by
            intro hmem
            rcases List.mem_cons.mp hmem with h1 | h1
            · exact he h1
            · exact hseen h1)
          exact ⟨u, List.mem_cons_of_mem _ hu, hue⟩

/-- C8: the per-document scanner output satisfies the `ScanItem` invariant:
a present primary tag appears (by slash string) among the secondary tags;
the secondary tags have pairwise-distinct slash strings; and they are the
first occurrences, in order, of the concatenation frontmatter tags ++
inline body tags ++ primary tag (a sublist of it that covers every slash
string, each kept element being the first of its slash string). -/
theorem c8_theorem (d : Document) :
    (∀ p, scanPrimary d = some p → ∃ u ∈ scanSecondary d, toSlash u = toSlash p)
    ∧ ((scanSecondary d).map toSlash).Nodup
    ∧ (scanSecondary d).Sublist (scanConcat d)
    ∧ (∀ t ∈ scanConcat d, ∃ u ∈ scanSecondary d, toSlash u = toSlash t)
    ∧ (∀ u ∈ scanSecondary d,
        (scanConcat d).find? (fun x => toSlash x == toSlash u) = some u) := by
  refine ⟨?_, dedupeGo_keys_nodup _ _, dedupeGo_sublist _ _,
    fun t ht => dedupeGo_covers _ [] t ht (by simp),
    fun u hu => (dedupeGo_not_seen_first _ [] u hu).2⟩
  intro p hp
  apply dedupeGo_covers _ [] _ ?_ (by simp)
  simp [scanConcat, hp]

/-- Witness for C8 at a document with frontmatter tag `x`, body tag `y`,
and primary tag `x` (so deduplication and primary inclusion are both
exercised). -/
theorem c8_witness :
    (∀ p, scanPrimary (some ([("tags".data, .seq [.str "x".data])],
        "\x7b #x \x7d\n\n#y".data)) = some p →
      ∃ u ∈ scanSecondary (some ([("tags".data, .seq [.str "x".data])],
        "\x7b #x \x7d\n\n#y".data)), toSlash u = toSlash p)
    ∧ ((scanSecondary (some ([("tags".data, .seq [.str "x".data])],
        "\x7b #x \x7d\n\n#y".data))).map toSlash).Nodup
    ∧ (scanSecondary (some ([("tags".data, .seq [.str "x".data])],
        "\x7b #x \x7d\n\n#y".data))).Sublist
      (scanConcat (some ([("tags".data, .seq [.str "x".data])],
        "\x7b #x \x7d\n\n#y".data)))
    ∧ (∀ t ∈ scanConcat (some ([("tags".data, .seq [.str "x".data])],
        "\x7b #x \x7d\n\n#y".data)),
      ∃ u ∈ scanSecondary (some ([("tags".data, .seq [.str "x".data])],
        "\x7b #x \x7d\n\n#y".data)), toSlash u = toSlash t)
    ∧ (∀ u ∈ scanSecondary (some ([("tags".data, .seq [.str "x".data])],
        "\x7b #x \x7d\n\n#y".data)),
      (scanConcat (some ([("tags".data, .seq [.str "x".data])],
        "\x7b #x \x7d\n\n#y".data))).find?
        (fun x => toSlash x == toSlash u) = some u) :=
  c8_theorem _

/-! ## Redir collision handling: claims C9 and C10 -/

theorem fsReadGo_write_self : ∀ (files : List (FsPath × (Mapping × Str)))
    (q : FsPath) (d : Mapping × Str), fsReadGo (fsWriteGo files q d) q = some d := by
  intro files
  induction files with
  | nil => intro q d; simp [fsWriteGo, fsReadGo]
  | cons e rest ih =>
    intro q d
    obtain ⟨p, d'⟩ := e
    by_cases hp : p = q
    · subst hp
      simp [fsWriteGo, fsReadGo]
    · simp [fsWriteGo, fsReadGo, hp, ih]

theorem fsReadGo_write_other : ∀ (files : List (FsPath × (Mapping × Str)))
    (q : FsPath) (d : Mapping × Str) (p : FsPath), p ≠ q →
    fsReadGo (fsWriteGo files q d) p = fsReadGo files p := by
  intro files
  induction files with
  | nil => intro q d p h; simp [fsWriteGo, fsReadGo, Ne.symm h]
  | cons e rest ih =>
    intro q d p h
    obtain ⟨p', d'⟩ := e
    by_cases hp : p' = q
    · subst hp
      simp [fsWriteGo, fsReadGo, Ne.symm h]
    · by_cases hq : p' = p <;> simp [fsWriteGo, fsReadGo, hp, hq, h, ih _ _ _ h]

theorem fsRead_write_self (fs : FS) (q : FsPath) (d : Mapping × Str) :
    fsRead (fsWriteFile fs q d) q = some d := fsReadGo_write_self _ _ _

theorem fsRead_write_other (fs : FS) (q : FsPath) (d : Mapping × Str) (p : FsPath)
    (h : p ≠ q) : fsRead (fsWriteFile fs q d) p = fsRead fs p :=
  fsReadGo_write_other _ _ _ _ h

theorem fsRead_mkdir (fs : FS) (q p : FsPath) :
    fsRead (fsMkdirAll fs q) p = fsRead fs p := rfl

theorem backupFileName_length (f ts : Str) : f.length < (backupFileName f ts).length := by
  unfold backupFileName
  by_cases hsuf : (".md".data).isSuffixOf f
  · have hle : 3 ≤ f.length := by
      have h2 : (".md".data) <:+ f := by
        rwa [← List.isSuffixOf_iff_suffix]
      simpa using h2.length_le
    have htk : (f.take (f.length - 3)).length = f.length - 3 := by
      rw [List.length_take]
      omega
    simp only [hsuf, if_true, List.length_append, htk, List.length_cons]
    omega
  · simp only [hsuf, Bool.false_eq_true, if_false, List.length_append, List.length_cons]
    omega

theorem backupFileName_ne (f ts : Str) : backupFileName f ts ≠ f := by
  intro h
  have h2 := backupFileName_length f ts
  rw [h] at h2
  exact Nat.lt_irrefl _ h2

theorem path_ne_of_last (p q : FsPath) (a b : Str) (hp : p.getLast? = some a)
    (hq : q.getLast? = some b) (h : a ≠ b) : p ≠ q := by
  intro he
  rw [he, hq] at hp
  exact h (Option.some.inj hp).symm

/-- C9: if a file already exists at the redir destination
`notes_root/tag…/filename`, `redir_file_inner` returns an error without
performing the move: in the final state the source file still holds its
content at its location, and the pre-existing destination file is
untouched. -/
theorem c9_theorem (canon : FsPath → Option FsPath) (choose : List Str → Option Nat)
    (ts : Str) (vault : FsPath) (notesDir : Str) (noBackup : Bool) (fs : FS)
    (path : FsPath) (fm : Mapping) (body : Str) (tag : TagPath) (filename : Str)
    (d0 : Mapping × Str)
    (hread : fsRead fs path = some (fm, body))
    (hsel : selectRedirTag choose fm body = .ok (some tag))
    (hlast : path.getLast? = some filename)
    (hok : redirAlreadyOk canon path.dropLast (vault ++ notesDir :: tag) = false)
    (hdest : fsRead fs ((vault ++ notesDir :: tag) ++ [filename]) = some d0) :
    ∃ fs', redirFileInner canon choose ts vault notesDir noBackup fs path =
        (fs', .error ())
      ∧ fsRead fs' path = some (fm, body)
      ∧ fsRead fs' ((vault ++ notesDir :: tag) ++ [filename]) = some d0 := by
  have hbne1 : path ≠ backupDir vault ++ [backupFileName filename ts] :=
    path_ne_of_last _ _ _ _ hlast (List.getLast?_concat _)
      (fun he => backupFileName_ne filename ts he.symm)
  have hbne2 : (vault ++ notesDir :: tag) ++ [filename] ≠
      backupDir vault ++ [backupFileName filename ts] :=
    path_ne_of_last _ _ _ _ (List.getLast?_concat _) (List.getLast?_concat _)
      (fun he => backupFileName_ne filename ts he.symm)
  have hassoc : vault ++ notesDir :: (tag ++ [filename]) =
      (vault ++ notesDir :: tag) ++ [filename] := by simp
  have hdest' : fsRead fs (vault ++ notesDir :: (tag ++ [filename])) = some d0 := by
    rw [hassoc]
    exact hdest
  have hbne2' : vault ++ notesDir :: (tag ++ [filename]) ≠
      backupDir vault ++ [backupFileName filename ts] := by
    rw [hassoc]
    exact hbne2
  cases noBackup with
  | true =>
    refine ⟨fsMkdirAll fs (vault ++ notesDir :: tag), ?_, hread, hdest⟩
    simp only [redirFileInner, hread, hsel, hok, Bool.false_eq_true, if_false,
      if_true, hlast]
    have hex : fsExists (fsMkdirAll fs (vault ++ notesDir :: tag))
        ((vault ++ notesDir :: tag) ++ [filename]) = true := by
      simp [fsExists, fsRead_mkdir, hdest']
    simp only [hex, if_true]
  | false =>
    have hb : createBackup ts vault fs path =
        .ok (fsWriteFile (fsMkdirAll fs (backupDir vault))
          (backupDir vault ++ [backupFileName filename ts]) (fm, body)) := by
      simp only [createBackup, hlast, fsRead_mkdir, hread]
    refine ⟨fsMkdirAll (fsWriteFile (fsMkdirAll fs (backupDir vault))
      (backupDir vault ++ [backupFileName filename ts]) (fm, body))
      (vault ++ notesDir :: tag), ?_, ?_, ?_⟩
    · simp only [redirFileInner, hread, hsel, hok, Bool.false_eq_true, if_false,
        hb, hlast]
      have hex : fsExists (fsMkdirAll (fsWriteFile (fsMkdirAll fs (backupDir vault))
          (backupDir vault ++ [backupFileName filename ts]) (fm, body))
          (vault ++ notesDir :: tag))
          ((vault ++ notesDir :: tag) ++ [filename]) = true := by
        simp [fsExists, fsRead_mkdir,
          fsRead_write_other _ _ _ _ hbne2', hdest']
      simp only [hex, if_true]
    · rw [fsRead_mkdir, fsRead_write_other _ _ _ _ hbne1, fsRead_mkdir]
      exact hread
    · rw [fsRead_mkdir, fsRead_write_other _ _ _ _ hbne2, fsRead_mkdir]
      exact hdest

/-- Witness for C9: a collision at `N/a/n.md`, with backups enabled. -/
theorem c9_witness :
    fsRead { files := [(["w".data, "n.md".data], ([], "\x7b #a \x7d\n\nt".data)),
          ((([] : FsPath) ++ "N".data :: ["a".data]) ++ ["n.md".data],
            ([], "old".data))], dirs := [] }
        ["w".data, "n.md".data] = some ([], "\x7b #a \x7d\n\nt".data)
    ∧ selectRedirTag (fun _ => none) [] "\x7b #a \x7d\n\nt".data = .ok (some ["a".data])
    ∧ (["w".data, "n.md".data] : FsPath).getLast? = some "n.md".data
    ∧ redirAlreadyOk (fun p => some p) (["w".data, "n.md".data] : FsPath).dropLast
        ([] ++ "N".data :: ["a".data]) = false
    ∧ fsRead { files := [(["w".data, "n.md".data], ([], "\x7b #a \x7d\n\nt".data)),
          ((([] : FsPath) ++ "N".data :: ["a".data]) ++ ["n.md".data],
            ([], "old".data))], dirs := [] }
        ((([] : FsPath) ++ "N".data :: ["a".data]) ++ ["n.md".data])
      = some ([], "old".data)
    ∧ ∃ fs', redirFileInner (fun p => some p) (fun _ => none) "TS".data []
          "N".data false
          { files := [(["w".data, "n.md".data], ([], "\x7b #a \x7d\n\nt".data)),
            ((([] : FsPath) ++ "N".data :: ["a".data]) ++ ["n.md".data],
              ([], "old".data))], dirs := [] }
          ["w".data, "n.md".data] = (fs', .error ())
        ∧ fsRead fs' ["w".data, "n.md".data] = some ([], "\x7b #a \x7d\n\nt".data)
        ∧ fsRead fs' ((([] : FsPath) ++ "N".data :: ["a".data]) ++ ["n.md".data])
          = some ([], "old".data) :=
  ⟨rfl, rfl, rfl, rfl, rfl,
    c9_theorem (fun p => some p) (fun _ => none) "TS".data [] "N".data false _
      ["w".data, "n.md".data] [] "\x7b #a \x7d\n\nt".data ["a".data] "n.md".data
      ([], "old".data) rfl rfl rfl rfl rfl⟩

/-- C10: redir's side effects happen in the order backup copy, destination
directory creation, collision check, move; consequently a document that
fails with a collision error with backups enabled has nevertheless produced
a timestamped backup of the source and created the destination directory,
while the source file itself is unmoved and unchanged. -/
theorem c10_theorem (canon : FsPath → Option FsPath) (choose : List Str → Option Nat)
    (ts : Str) (vault : FsPath) (notesDir : Str) (fs : FS)
    (path : FsPath) (fm : Mapping) (body : Str) (tag : TagPath) (filename : Str)
    (hread : fsRead fs path = some (fm, body))
    (hsel : selectRedirTag choose fm body = .ok (some tag))
    (hlast : path.getLast? = some filename)
    (hok : redirAlreadyOk canon path.dropLast (vault ++ notesDir :: tag) = false)
    (hexist : fsExists fs ((vault ++ notesDir :: tag) ++ [filename]) = true) :
    ∃ fs', redirFileInner canon choose ts vault notesDir false fs path =
        (fs', .error ())
      ∧ fsRead fs' (backupDir vault ++ [backupFileName filename ts]) = some (fm, body)
      ∧ (vault ++ notesDir :: tag) ∈ fs'.dirs
      ∧ fsRead fs' path = some (fm, body) := by
  have hbne1 : path ≠ backupDir vault ++ [backupFileName filename ts] :=
    path_ne_of_last _ _ _ _ hlast (List.getLast?_concat _)
      (fun he => backupFileName_ne filename ts he.symm)
  have hbne2 : (vault ++ notesDir :: tag) ++ [filename] ≠
      backupDir vault ++ [backupFileName filename ts] :=
    path_ne_of_last _ _ _ _ (List.getLast?_concat _) (List.getLast?_concat _)
      (fun he => backupFileName_ne filename ts he.symm)
  have hb : createBackup ts vault fs path =
      .ok (fsWriteFile (fsMkdirAll fs (backupDir vault))
        (backupDir vault ++ [backupFileName filename ts]) (fm, body)) := by
    simp only [createBackup, hlast, fsRead_mkdir, hread]
  refine ⟨fsMkdirAll (fsWriteFile (fsMkdirAll fs (backupDir vault))
    (backupDir vault ++ [backupFileName filename ts]) (fm, body))
    (vault ++ notesDir :: tag), ?_, ?_, ?_, ?_⟩
  · simp only [redirFileInner, hread, hsel, hok, Bool.false_eq_true, if_false,
      hb, hlast]
    have hex : fsExists (fsMkdirAll (fsWriteFile (fsMkdirAll fs (backupDir vault))
        (backupDir vault ++ [backupFileName filename ts]) (fm, body))
        (vault ++ notesDir :: tag))
        ((vault ++ notesDir :: tag) ++ [filename]) = true := by
      simp only [fsExists, Bool.or_eq_true, decide_eq_true_eq] at hexist ⊢
      rcases hexist with hx | hx
      · left
        rwa [fsRead_mkdir, fsRead_write_other _ _ _ _ hbne2, fsRead_mkdir]
      · right
        exact List.mem_cons_of_mem _ (List.mem_cons_of_mem _ hx)
    simp only [hex, if_true]
  · rw [fsRead_mkdir]
    exact fsRead_write_self _ _ _
  · exact List.mem_cons_self _ _
  · rw [fsRead_mkdir, fsRead_write_other _ _ _ _ hbne1, fsRead_mkdir]
    exact hread

/-- Witness for C10 at the same collision scenario as C9. -/
theorem c10_witness :
    fsRead { files := [(["w".data, "n.md".data], ([], "\x7b #a \x7d\n\nt".data)),
          ((([] : FsPath) ++ "N".data :: ["a".data]) ++ ["n.md".data],
            ([], "old".data))], dirs := [] }
        ["w".data, "n.md".data] = some ([], "\x7b #a \x7d\n\nt".data)
    ∧ selectRedirTag (fun _ => none) [] "\x7b #a \x7d\n\nt".data = .ok (some ["a".data])
    ∧ (["w".data, "n.md".data] : FsPath).getLast? = some "n.md".data
    ∧ redirAlreadyOk (fun p => some p) (["w".data, "n.md".data] : FsPath).dropLast
        ([] ++ "N".data :: ["a".data]) = false
    ∧ fsExists { files := [(["w".data, "n.md".data], ([], "\x7b #a \x7d\n\nt".data)),
          ((([] : FsPath) ++ "N".data :: ["a".data]) ++ ["n.md".data],
            ([], "old".data))], dirs := [] }
        ((([] : FsPath) ++ "N".data :: ["a".data]) ++ ["n.md".data]) = true
    ∧ ∃ fs', redirFileInner (fun p => some p) (fun _ => none) "TS".data []
          "N".data false
          { files := [(["w".data, "n.md".data], ([], "\x7b #a \x7d\n\nt".data)),
            ((([] : FsPath) ++ "N".data :: ["a".data]) ++ ["n.md".data],
              ([], "old".data))], dirs := [] }
          ["w".data, "n.md".data] = (fs', .error ())
        ∧ fsRead fs' (backupDir [] ++ [backupFileName "n.md".data "TS".data])
          = some ([], "\x7b #a \x7d\n\nt".data)
        ∧ (([] : FsPath) ++ "N".data :: ["a".data]) ∈ fs'.dirs
        ∧ fsRead fs' ["w".data, "n.md".data] = some ([], "\x7b #a \x7d\n\nt".data) :=
  ⟨rfl, rfl, rfl, rfl, rfl,
    c10_theorem (fun p => some p) (fun _ => none) "TS".data [] "N".data _
      ["w".data, "n.md".data] [] "\x7b #a \x7d\n\nt".data ["a".data] "n.md".data
      rfl rfl rfl rfl rfl⟩

/-! ## Tags-cache tree: claim C1 -/

theorem lookupChild_insertChild (s x : Str) : ∀ (cs : List (Str × TagNode))
    (q' : List Str),
    lookupChild (insertChild cs s q') x =
      if x = s then some (insertPath ((lookupChild cs s).getD (.mk s [])) q')
      else lookupChild cs x := by
  intro cs
  induction cs with
  | nil =>
    intro q'
    by_cases hx : x = s
    · subst hx
      simp [insertChild, lookupChild]
    · simp [insertChild, lookupChild, hx, Ne.symm hx]
  | cons e cs' ih =>
    intro q'
    obtain ⟨k, c⟩ := e
    by_cases hk : s = k
    · subst hk
      simp only [insertChild, if_pos rfl]
      by_cases hx : x = s
      · subst hx
        simp [lookupChild]
      · simp [lookupChild, hx, Ne.symm hx]
    · simp only [insertChild, if_neg hk]
      have hk2 : ¬ (k = s) := fun h => hk h.symm
      by_cases hkx : k = x
      · subst hkx
        have hx : ¬ (k = s) := hk2
        simp [lookupChild, hx]
      · simp only [lookupChild, if_neg hkx]
        rw [ih q']
        by_cases hx : x = s
        · simp [hx, lookupChild, hk2]
        · simp [hx, lookupChild, hkx]

theorem hasPath_any_nil (n : TagNode) : hasPath n [] = true := by
  cases n
  rfl

theorem hasPath_node_nil (name : Str) (p : List Str) :
    hasPath (.mk name []) p = true ↔ p = [] := by
  cases p with
  | nil => simp [hasPath]
  | cons x p' => simp [hasPath, lookupChild]

theorem hasPath_insertPath : ∀ (q : List Str) (n : TagNode) (p : List Str),
    hasPath (insertPath n q) p = true ↔ hasPath n p = true ∨ p <+: q := by
  intro q
  induction q with
  | nil =>
    intro n p
    cases n with
    | mk name cs =>
      simp only [insertPath]
      constructor
      · exact fun h => Or.inl h
      · rintro (h | h)
        · exact h
        · have hp : p = [] := by simpa using h
          subst hp
          exact hasPath_any_nil _
  | cons s q' ih =>
    intro n p
    cases n with
    | mk name cs =>
      cases p with
      | nil =>
        simp [hasPath_any_nil]
      | cons x p' =>
        simp only [insertPath, hasPath]
        rw [lookupChild_insertChild s x cs q']
        by_cases hx : x = s
        · subst hx
          cases hl : lookupChild cs x with
          | some c =>
            simp [hl, ih c p', List.cons_prefix_cons]
          | none =>
            simp [hl, ih _ p', hasPath_node_nil, List.cons_prefix_cons]
            exact fun h => by subst h; exact List.nil_prefix
        · simp only [if_neg hx]
          have hnp : ¬ ((x :: p') <+: (s :: q')) := by
            rw [List.cons_prefix_cons]
            rintro ⟨h1, _⟩
            exact hx h1
          simp [hnp]

theorem hasPath_foldl_insert : ∀ (ts : List TagPath) (n : TagNode) (p : List Str),
    hasPath (ts.foldl (fun r t => insertPath r t) n) p = true ↔
      hasPath n p = true ∨ ∃ t ∈ ts, p <+: t := by
  intro ts
  induction ts with
  | nil => intro n p; simp
  | cons t rest ih =>
    intro n p
    simp only [List.foldl_cons]
    rw [ih, hasPath_insertPath t n p]
    constructor
    · rintro ((h | h) | ⟨u, hu, hp⟩)
      · exact Or.inl h
      · exact Or.inr ⟨t, List.mem_cons_self _ _, h⟩
      · exact Or.inr ⟨u, List.mem_cons_of_mem _ hu, hp⟩
    · rintro (h | ⟨u, hu, hp⟩)
      · exact Or.inl (Or.inl h)
      · rcases List.mem_cons.mp hu with rfl | hu'
        · exact Or.inl (Or.inr hp)
        · exact Or.inr ⟨u, hu', hp⟩

theorem hasPath_collect_fold : ∀ (docs : List Document) (n : TagNode) (p : List Str),
    hasPath (docs.foldl
      (fun root d =>
        match d with
        | some (fm, _) => (fromFrontmatter fm).foldl (fun r t => insertPath r t) root
        | none => root) n) p = true ↔
      hasPath n p = true ∨
        ∃ fm body, some (fm, body) ∈ docs ∧ ∃ t ∈ fromFrontmatter fm, p <+: t := by
  intro docs
  induction docs with
  | nil =>
    intro n p
    constructor
    · exact fun h => Or.inl h
    · rintro (h | ⟨fm, body, hmem, hex⟩)
      · exact h
      · exact absurd hmem (List.not_mem_nil _)
  | cons d rest ih =>
    intro n p
    simp only [List.foldl_cons]
    rw [ih]
    cases d with
    | none =>
      constructor
      · rintro (h | ⟨fm, body, hmem, hex⟩)
        · exact Or.inl h
        · exact Or.inr ⟨fm, body, List.mem_cons_of_mem _ hmem, hex⟩
      · rintro (h | ⟨fm, body, hmem, hex⟩)
        · exact Or.inl h
        · rcases List.mem_cons.mp hmem with heq | hmem'
          · exact Option.noConfusion heq
          · exact Or.inr ⟨fm, body, hmem', hex⟩
    | some pair =>
      obtain ⟨fm0, body0⟩ := pair
      rw [hasPath_foldl_insert]
      constructor
      · rintro ((h | hex) | ⟨fm, body, hmem, hex⟩)
        · exact Or.inl h
        · exact Or.inr ⟨fm0, body0, List.mem_cons_self _ _, hex⟩
        · exact Or.inr ⟨fm, body, List.mem_cons_of_mem _ hmem, hex⟩
      · rintro (h | ⟨fm, body, hmem, hex⟩)
        · exact Or.inl (Or.inl h)
        · rcases List.mem_cons.mp hmem with heq | hmem'
          · obtain ⟨h1, h2⟩ := Prod.mk.inj (Option.some.inj heq)
            subst h1
            exact Or.inl (Or.inr hex)
          · exact Or.inr ⟨fm, body, hmem', hex⟩

/-- C1: the claim says a segment sequence is a root-to-node path of the
regenerated tags cache iff it is a prefix of some scanned document's
secondary tag.  A vault with one document whose only tag is the inline
body tag `#tag` refutes it: `tag` is a secondary tag of the scan, yet the
cache tree built by `cache::collect` (which only inserts
frontmatter-declared tags) does not contain the path `tag`. -/
theorem c1_counterexample :
    hasPath (collectTree [some ([], "#tag".data)]) ["tag".data] = false
    ∧ ∃ t ∈ scanSecondary (some ([], "#tag".data)), ["tag".data] <+: t := by
  constructor
  · rfl
  · have h : scanSecondary (some ([], "#tag".data)) = [["tag".data]] := by
      simp [scanSecondary, scanConcat, scanPrimary, fmOf, bodyOf, fromFrontmatter,
        tagSeqLookup, tagKeys, mget, extractBodyTags, bodyTagsGo, splitOnChar,
        isFenceLine, trimStart, extractPrimaryTag, markOpen, markClose,
        List.isPrefixOf, extractHashTagsFromLine, parseSegs, trimBoth, trimEnd,
        isTagChar, Char.isAlphanum, Char.isAlpha, Char.isDigit, Char.isLower,
        Char.isUpper, dedupeTags, dedupeGo, toSlash, joinSlash]
    rw [h]
    exact ⟨["tag".data], by simp, List.prefix_refl _⟩

/-- C1 (amended): a segment sequence is a root-to-node path of the tree
built by the tags-cache regeneration iff it is empty or a prefix of some
frontmatter-declared tag of a document whose frontmatter parses; inline
body tags and the primary tag are not inserted. -/
theorem c1_amended (docs : List Document) (p : List Str) :
    hasPath (collectTree docs) p = true ↔
      p = [] ∨ ∃ fm body, some (fm, body) ∈ docs ∧
        ∃ t ∈ fromFrontmatter fm, p <+: t := by
  rw [show collectTree docs = docs.foldl
    (fun root d =>
      match d with
      | some (fm, _) => (fromFrontmatter fm).foldl (fun r t => insertPath r t) root
      | none => root) (.mk "root".data []) from rfl]
  rw [hasPath_collect_fold docs (.mk "root".data []) p, hasPath_node_nil]

end MagicDocs
